import Mathlib

/-!
# Verification of the calc-bits repository against its specification

This file shallowly embeds the parts of the calc-bits repository (add-ons and
modifications to the Calc arbitrary-precision calculator) that the frozen
claims are about, and proves or refutes each claim.

The repository's own sources under `src/` are `cal/guff.cal` (the factoring
framework, in Calc's surface language), `version.c`, build probes and help
documents.  The arbitrary-precision numeric kernel (`zmath.c`, `qmath.c`,
`zfunc.c`, the value model and the VM) is not present under `src/`; where a
claim is decided by that missing code, the corresponding definitions below are
modelled from the specification and are marked `Modelled from the spec:` in
their doc comments.
-/

/-! ## version.c (present in src/)

Constants and the `version()` function from `src/version.c`. -/

def MAJOR_VER : Nat := 2

def MINOR_VER : Nat := 12

def MAJOR_PATCH : Nat := 6

def MINOR_PATCH : Nat := 3

def calc_major_ver : Nat := MAJOR_VER

def calc_minor_ver : Nat := MINOR_VER

def calc_major_patch : Nat := MAJOR_PATCH

def calc_minor_patch : Nat := MINOR_PATCH

/-- The string formed by `snprintf(verbuf, BUFSIZ, "%d.%d.%d.%d", ...)` in
`version()` (src/version.c line 121). -/
def versionString : String :=
  toString calc_major_ver ++ "." ++ toString calc_minor_ver ++ "." ++
    toString calc_major_patch ++ "." ++ toString calc_minor_patch

/-- `version()` from src/version.c: if a previously stored version exists it is
returned unchanged; otherwise the version string is formed, stored into
`stored_version`, and returned.  The `stored_version` static is threaded as
explicit state. -/
def version (stored_version : Option String) : String × Option String :=
  match stored_version with
  | some s => (s, some s)
  | none => (versionString, some versionString)

/-- The state of `stored_version` and the returned string after the `n`-th
call to `version()`, starting from the initial state `stored_version = NULL`. -/
def versionCalls : Nat → String × Option String
  | 0 => version none
  | n + 1 => version (versionCalls n).2

/-! ## Rational quotient/remainder with rounding policies

Modelled from the spec: the rational kernel (`qmath.c`) is not under `src/`.
Section 4.B: "`mod` and integer `quo` take a rounding policy from
configuration (§6): round to zero, to nearest-even, toward −∞, toward +∞,
away from zero, truncate, round-half-up." -/

/-- Modelled from the spec: the seven configurable rounding policies of §4.B
(the kernel code that interprets the `quo`/`mod` configuration values is not
under `src/`). -/
inductive Rnd where
  | toZero
  | nearestEven
  | down
  | up
  | awayFromZero
  | trunc
  | halfUp
deriving DecidableEq, Repr

/-- Modelled from the spec: round a rational to an integer under a rounding
policy (§4.B, §9 "a single small enum with a shared dispatcher"). -/
def qround (x : ℚ) : Rnd → ℤ
  | .down => ⌊x⌋
  | .up => ⌈x⌉
  | .toZero => if x < 0 then ⌈x⌉ else ⌊x⌋
  | .trunc => if x < 0 then ⌈x⌉ else ⌊x⌋
  | .awayFromZero => if x < 0 then ⌊x⌋ else ⌈x⌉
  | .halfUp => ⌊x + 1 / 2⌋
  | .nearestEven =>
      if x - ⌊x⌋ < 1 / 2 then ⌊x⌋
      else if 1 / 2 < x - ⌊x⌋ then ⌊x⌋ + 1
      else if Even ⌊x⌋ then ⌊x⌋ else ⌊x⌋ + 1

/-- Modelled from the spec: the integer quotient `quo(a, b)` under a rounding
policy (§4.B), i.e. the exact quotient `a / b` rounded to an integer. -/
def qquo (a b : ℚ) (m : Rnd) : ℤ := qround (a / b) m

/-- Modelled from the spec: the remainder `mod(a, b)` under a rounding policy,
the amount by which `a` exceeds `quo(a, b) * b` (§4.B, §8). -/
def qmod (a b : ℚ) (m : Rnd) : ℚ := a - qquo a b m * b

/-- Modelled from the spec: `quomod(a, b)` returns the quotient/remainder pair
(§6 configuration option `quomod`, §8). -/
def quomod (a b : ℚ) (m : Rnd) : ℤ × ℚ := (qquo a b m, qmod a b m)

/-! ## The error channel and `stoponerror`

Modelled from the spec: the VM and value model are not under `src/`.
§4.E/§4.I/§7: arithmetic opcodes produce `Error` on failure and push it;
most opcodes propagate by refusing to operate on `Error` operands; when the
`stoponerror` counter is positive, the next error aborts the statement
unconditionally and decrements the counter. -/

/-- Modelled from the spec: error kinds of the §7 taxonomy that the claims
mention. -/
inductive ErrKind where
  | divByZero
  | invalidArg
  | typeMismatch
deriving DecidableEq, Repr

/-- Modelled from the spec: the fragment of the tagged `Value` union that the
error-handling claim needs (§3): numbers and first-class `Error` values. -/
inductive Value where
  | num (q : ℚ)
  | err (k : ErrKind)
deriving DecidableEq, Repr

/-- Modelled from the spec: the configuration fields the error channel
consults (§6): the `stoponerror` counter. -/
structure Config where
  stoponerror : Nat
deriving DecidableEq, Repr

/-- Modelled from the spec: the default configuration (`stoponerror` not
engaged). -/
def defaultConfig : Config := ⟨0⟩

/-- Modelled from the spec: `config("stoponerror", n)` sets the counter. -/
def setStopOnError (cfg : Config) (n : Nat) : Config := { cfg with stoponerror := n }

/-- Modelled from the spec: the opcodes of the evaluation fragment the
error-handling claim needs: push a constant, binary division. -/
inductive Op where
  | push (q : ℚ)
  | div
deriving DecidableEq, Repr

/-- Modelled from the spec: the outcome of executing a statement: a final
configuration and stack, or an abort of the statement (with the updated
configuration). -/
inductive Outcome where
  | ok (cfg : Config) (stack : List Value)
  | aborted (cfg : Config)
deriving DecidableEq, Repr

/-- Modelled from the spec: one opcode step of the VM's arithmetic/error
channel (§4.I, §7).  Division by zero produces a first-class `Error` value and
pushes it, unless the `stoponerror` counter is positive, in which case the
statement is aborted and the counter decremented; `Error` operands pass
through. -/
def step (cfg : Config) (stack : List Value) : Op → Outcome
  | .push q => .ok cfg (Value.num q :: stack)
  | .div =>
      match stack with
      | b :: a :: rest =>
          match a, b with
          | _, .err k => .ok cfg (Value.err k :: rest)
          | .err k, _ => .ok cfg (Value.err k :: rest)
          | .num x, .num y =>
              if y = 0 then
                if 0 < cfg.stoponerror then
                  .aborted ⟨cfg.stoponerror - 1⟩
                else
                  .ok cfg (Value.err .divByZero :: rest)
              else
                .ok cfg (Value.num (x / y) :: rest)
      | _ => .ok cfg [Value.err .typeMismatch]

/-- Modelled from the spec: run a statement (a straight-line sequence of
opcodes); an abort stops the statement. -/
def runStmt (cfg : Config) (stack : List Value) : List Op → Outcome
  | [] => .ok cfg stack
  | op :: ops =>
      match step cfg stack op with
      | .ok cfg' stack' => runStmt cfg' stack' ops
      | .aborted cfg' => .aborted cfg'

/-- The compiled form of the statement `1/0`: push 1, push 0, divide. -/
def oneOverZero : List Op := [.push 1, .push 0, .div]

/-! # Theorems for the claims -/

/-- C10: every call to `version()` returns the string "2.12.6.3" formed from
the four version constants as "major.minor.majorpatch.minorpatch"; the string
is computed and stored on the first call and every subsequent call returns the
identical stored string. -/
theorem version_constant :
    versionString = "2.12.6.3" ∧
    (∀ n, versionCalls n = ("2.12.6.3", some "2.12.6.3")) ∧
    (∀ s, version (some s) = (s, some s)) := by
  refine ⟨by decide, ?_, fun s => rfl⟩
  intro n
  induction n with
  | zero => decide
  | succ n ih => rw [versionCalls, ih]; decide

/-- C1: for rationals `a`, `b` with `b ≠ 0` and any of the seven configurable
rounding policies, the integer quotient and the remainder satisfy
`quo(a,b) * b + mod(a,b) = a`, and the pair returned by `quomod` satisfies
`(a quomod b).0 * b + (a quomod b).1 = a` exactly. -/
theorem quo_mod_identity (a b : ℚ) (m : Rnd) (hb : b ≠ 0) :
    (qquo a b m : ℚ) * b + qmod a b m = a ∧
    ((quomod a b m).1 : ℚ) * b + (quomod a b m).2 = a := by
  have _ := hb
  constructor <;> simp [quomod, qmod]

/-- Witness for C1: at `a = 7`, `b = 2`, rounding toward −∞, the hypothesis
`b ≠ 0` holds and the identity holds; concretely `quo = 3` and `mod = 1`. -/
theorem quo_mod_identity_witness :
    ((7 : ℚ) / 2 ≠ 0) ∧
    ((qquo 7 2 .down : ℚ) * 2 + qmod 7 2 .down = 7 ∧
      ((quomod 7 2 .down).1 : ℚ) * 2 + (quomod 7 2 .down).2 = 7) := by
  refine ⟨by norm_num, quo_mod_identity 7 2 .down (by norm_num)⟩

/-- C6: evaluating `1/0` under the default configuration pushes a first-class
division-by-zero `Error` value onto the evaluation stack rather than aborting;
when the `stoponerror` counter is positive (e.g. after
`config("stoponerror", 1)`), the next `1/0` aborts the statement and the
counter is decremented. -/
theorem div_by_zero_error_channel :
    runStmt defaultConfig [] oneOverZero =
      .ok defaultConfig [Value.err .divByZero] ∧
    runStmt (setStopOnError defaultConfig 1) [] oneOverZero =
      .aborted ⟨0⟩ ∧
    (∀ cfg : Config, 0 < cfg.stoponerror →
      runStmt cfg [] oneOverZero = .aborted ⟨cfg.stoponerror - 1⟩) := by
  refine ⟨by decide, by decide, ?_⟩
  intro cfg h
  obtain ⟨n⟩ := cfg
  cases n with
  | zero => exact absurd h (by decide)
  | succ k => simp [runStmt, step, oneOverZero]

/-- Witness for C6: at the configuration with `stoponerror = 2`, the
hypothesis `0 < stoponerror` holds and the statement `1/0` aborts with the
counter decremented to 1. -/
theorem div_by_zero_error_channel_witness :
    0 < (Config.mk 2).stoponerror ∧
    runStmt (Config.mk 2) [] oneOverZero = .aborted ⟨1⟩ :=
  ⟨by decide, (div_by_zero_error_channel.2.2 ⟨2⟩ (by decide))⟩

/-! ## Rational representation and lowest-terms reduction

Modelled from the spec: the rational layer (`qmath.c`) is not under `src/`.
§3: Rational `Q` is a record `{ sign: {+,−}, num: Z, den: Z }` with invariants
`den > 0`, `gcd(num,den) = 1`, and if `num = 0` then `den = 1` and `sign = +`.
§4.B: every result is reduced to lowest terms at the boundary; `a/b + c/d`
pulls out `g = gcd(b,d)` and computes `((a·(d/g)) + (c·(b/g))) / lcm(b,d)`. -/

/-- Modelled from the spec: the §3 rational record over magnitudes.
`sign = true` stands for `+`. -/
structure QRat where
  sign : Bool
  num : Nat
  den : Nat
deriving DecidableEq, Repr

/-- The §3 canonical-form invariant: positive denominator, numerator and
denominator coprime, and the zero rational is `+0/1`. -/
def canonical (q : QRat) : Prop :=
  0 < q.den ∧ Nat.gcd q.num q.den = 1 ∧ (q.num = 0 → q.den = 1 ∧ q.sign = true)

instance (q : QRat) : Decidable (canonical q) := by
  unfold canonical; infer_instance

/-- Modelled from the spec: reduction to lowest terms at the boundary (§4.B),
from a sign and an unreduced numerator/denominator pair. -/
def qreduce (s : Bool) (n d : Nat) : QRat :=
  if n = 0 then ⟨true, 0, 1⟩
  else
    let g := Nat.gcd n d
    ⟨s, n / g, d / g⟩

/-- Reduction applied to a `QRat` value itself (used to state idempotence). -/
def qreduceQ (q : QRat) : QRat := qreduce q.sign q.num q.den

/-- The signed integer numerator of a `QRat`. -/
def QRat.zn (q : QRat) : ℤ := if q.sign then (q.num : ℤ) else -(q.num : ℤ)

/-- Build a boundary-reduced `QRat` from a signed numerator and a (positive)
denominator magnitude. -/
def qmake (n : ℤ) (d : Nat) : QRat := qreduce (0 ≤ n) n.natAbs d

/-- Modelled from the spec: rational addition by the §4.B formula: with
`g = gcd(b,d)`, compute `((a·(d/g)) + (c·(b/g))) / lcm(b,d)` and reduce at the
boundary. -/
def qadd (x y : QRat) : QRat :=
  let g := Nat.gcd x.den y.den
  qmake (x.zn * (y.den / g : Nat) + y.zn * (x.den / g : Nat)) (Nat.lcm x.den y.den)

/-- Modelled from the spec: rational negation. -/
def qneg (x : QRat) : QRat := qreduce (decide (x.num = 0) || !x.sign) x.num x.den

/-- Modelled from the spec: rational subtraction `x + (−y)`. -/
def qsub (x y : QRat) : QRat := qadd x (qneg y)

/-- Modelled from the spec: rational multiplication by cross-multiplication
with boundary reduction (§4.B). -/
def qmul (x y : QRat) : QRat := qmake (x.zn * y.zn) (x.den * y.den)

/-- Modelled from the spec: rational inverse; fails (`none`) on zero. -/
def qinv (x : QRat) : Option QRat :=
  if x.num = 0 then none else some (qreduce x.sign x.den x.num)

/-- Modelled from the spec: rational division; fails with `DivByZero` on a
zero divisor (§4.A error conditions), represented as `none`. -/
def qdiv (x y : QRat) : Option QRat :=
  match qinv y with
  | none => none
  | some yi => some (qmul x yi)

/-- The reduction `qreduce` always yields a canonical rational when the input
denominator is nonzero. -/
theorem canonical_qreduce (s : Bool) (n d : Nat) (hd : d ≠ 0) :
    canonical (qreduce s n d) := by
  unfold qreduce canonical
  by_cases hn : n = 0
  · simp [hn]
  · have hg : 0 < Nat.gcd n d := Nat.gcd_pos_of_pos_left d (Nat.pos_of_ne_zero hn)
    simp only [hn, if_false]
    refine ⟨?_, ?_, ?_⟩
    · exact Nat.div_pos (Nat.le_of_dvd (Nat.pos_of_ne_zero hd) (Nat.gcd_dvd_right n d)) hg
    · exact Nat.coprime_div_gcd_div_gcd hg
    · intro h0
      exfalso
      have := Nat.div_pos (Nat.le_of_dvd (Nat.pos_of_ne_zero hn) (Nat.gcd_dvd_left n d)) hg
      omega

/-- `qmake` always yields a canonical rational when the denominator is
nonzero. -/
theorem canonical_qmake (n : ℤ) (d : Nat) (hd : d ≠ 0) : canonical (qmake n d) :=
  canonical_qreduce _ _ _ hd

/-- Canonical rationals have nonzero denominator (helper). -/
theorem canonical_den_ne_zero {q : QRat} (h : canonical q) : q.den ≠ 0 :=
  Nat.pos_iff_ne_zero.mp h.1

/-- C7: every rational value returned by the arithmetic operations (addition,
subtraction, multiplication, division) of the rational layer satisfies the
canonical-form invariant `den > 0 ∧ gcd(num, den) = 1 ∧ (num = 0 → den = 1 ∧
sign = +)`; consequently applying the lowest-terms reduction to a rational
already in lowest terms is a no-op. -/
theorem arithmetic_returns_canonical :
    (∀ x y : QRat, canonical x → canonical y →
      canonical (qadd x y) ∧ canonical (qsub x y) ∧ canonical (qmul x y)) ∧
    (∀ x y : QRat, canonical x → canonical y → y.num ≠ 0 →
      ∃ r, qdiv x y = some r ∧ canonical r) ∧
    (∀ q : QRat, canonical q → qreduceQ q = q) := by
  have hadd : ∀ x y : QRat, x.den ≠ 0 → y.den ≠ 0 → canonical (qadd x y) := by
    intro x y hx hy
    exact canonical_qmake _ _ (Nat.lcm_ne_zero hx hy)
  have hneg : ∀ y : QRat, y.den ≠ 0 → canonical (qneg y) := by
    intro y hy
    exact canonical_qreduce _ _ _ hy
  have hmul : ∀ x y : QRat, x.den ≠ 0 → y.den ≠ 0 → canonical (qmul x y) := by
    intro x y hx hy
    exact canonical_qmake _ _ (Nat.mul_ne_zero hx hy)
  refine ⟨?_, ?_, ?_⟩
  · intro x y hx hy
    refine ⟨hadd x y (canonical_den_ne_zero hx) (canonical_den_ne_zero hy), ?_, ?_⟩
    · exact hadd x (qneg y) (canonical_den_ne_zero hx)
        (canonical_den_ne_zero (hneg y (canonical_den_ne_zero hy)))
    · exact hmul x y (canonical_den_ne_zero hx) (canonical_den_ne_zero hy)
  · intro x y hx hy hynum
    have hyi : canonical (qreduce y.sign y.den y.num) := canonical_qreduce _ _ _ hynum
    refine ⟨qmul x (qreduce y.sign y.den y.num), ?_, ?_⟩
    · simp [qdiv, qinv, hynum]
    · exact hmul x _ (canonical_den_ne_zero hx) (canonical_den_ne_zero hyi)
  · intro q hq
    obtain ⟨s, n, d⟩ := q
    obtain ⟨hd, hg, h0⟩ := hq
    unfold qreduceQ qreduce
    by_cases hn : n = 0
    · obtain ⟨hd1, hs⟩ := h0 hn
      simp only at hd1 hs
      subst hd1 hs hn
      simp
    · simp only at hg
      simp [hn, hg]

/-- Witness for C7: the canonical rationals `1/2` and `-2/3`; all operations
on them produce canonical results, division succeeds, and reduction of `1/2`
is a no-op. -/
theorem arithmetic_returns_canonical_witness :
    canonical ⟨true, 1, 2⟩ ∧ canonical ⟨false, 2, 3⟩ ∧
    (canonical (qadd ⟨true, 1, 2⟩ ⟨false, 2, 3⟩) ∧
      canonical (qsub ⟨true, 1, 2⟩ ⟨false, 2, 3⟩) ∧
      canonical (qmul ⟨true, 1, 2⟩ ⟨false, 2, 3⟩)) ∧
    (∃ r, qdiv ⟨true, 1, 2⟩ ⟨false, 2, 3⟩ = some r ∧ canonical r) ∧
    qreduceQ ⟨true, 1, 2⟩ = ⟨true, 1, 2⟩ := by
  refine ⟨by decide, by decide, ?_, ?_, ?_⟩
  · exact arithmetic_returns_canonical.1 _ _ (by decide) (by decide)
  · exact arithmetic_returns_canonical.2.1 _ _ (by decide) (by decide) (by decide)
  · exact arithmetic_returns_canonical.2.2 _ (by decide)

/-! ## Integer square root and perfect-square test

Modelled from the spec: the magnitude layer (`zmath.c`, `zfunc.c`) is not
under `src/`; `cal/guff.cal` only calls the builtins `isqrt()` and `issq()`.
§4.A: "**sqrt_floor** and `is_square`: compute candidate by Newton iteration
on the integer; accept iff `r² ≤ n < (r+1)²`.  `is_square` returns the root
if found." -/

/-- Modelled from the spec: one Newton descent on the integer: from a guess
strictly above the fixpoint, move to `(guess + n/guess) / 2` until no longer
decreasing. -/
def sqrtIter (n guess : Nat) : Nat :=
  let next := (guess + n / guess) / 2
  if _h : next < guess then sqrtIter n next else guess
termination_by guess

/-- Modelled from the spec: `sqrt_floor` (surface-language `isqrt`), Newton
iteration on the integer (§4.A). -/
def sqrt_floor (n : Nat) : Nat :=
  if n ≤ 1 then n else sqrtIter n (n / 2)

/-- Modelled from the spec: `is_square` computes the Newton candidate and
accepts iff it squares back to `n`, returning the root on success (§4.A). -/
def is_square (n : Nat) : Option Nat :=
  let r := sqrt_floor n
  if r * r = n then some r else none

/-- The Newton iteration of `sqrt_floor` agrees with `Nat.sqrt`'s iteration
(which is the same Newton descent). -/
theorem sqrtIter_eq_sqrt_iter (n : Nat) : ∀ g : Nat, sqrtIter n g = Nat.sqrt.iter n g := by
  intro g
  induction g using Nat.strong_induction_on with
  | _ g ih =>
    rw [sqrtIter, Nat.sqrt.iter]
    by_cases h : (g + n / g) / 2 < g
    · simp only [h, dif_pos]
      exact ih _ h
    · rw [dif_neg h, dif_neg h]

/-- `sqrt_floor` computes `Nat.sqrt`. -/
theorem sqrt_floor_eq_sqrt (n : Nat) : sqrt_floor n = Nat.sqrt n := by
  unfold sqrt_floor Nat.sqrt
  by_cases h : n ≤ 1
  · simp [h]
  · simp only [h, if_neg, if_false]
    exact sqrtIter_eq_sqrt_iter n (n / 2)

/-- C2: for every non-negative integer `a`, the integer square root operation
`sqrt_floor` (surface-language `isqrt`) returns the unique integer `r` with
`r² ≤ a < (r+1)²`. -/
theorem sqrt_floor_bracket (a : Nat) :
    sqrt_floor a * sqrt_floor a ≤ a ∧ a < (sqrt_floor a + 1) * (sqrt_floor a + 1) ∧
    (∀ r : Nat, r * r ≤ a ∧ a < (r + 1) * (r + 1) → r = sqrt_floor a) := by
  rw [sqrt_floor_eq_sqrt]
  refine ⟨Nat.sqrt_le a, Nat.lt_succ_sqrt a, ?_⟩
  intro r hr
  exact Nat.eq_sqrt.mpr hr

/-- Witness for C2: at `a = 10` the bracketing holds with root `3`, and the
uniqueness clause applied to the candidate `3` (whose hypothesis holds
concretely) identifies it with `sqrt_floor 10`. -/
theorem sqrt_floor_bracket_witness :
    ((3 : Nat) * 3 ≤ 10 ∧ 10 < (3 + 1) * (3 + 1)) ∧ 3 = sqrt_floor 10 :=
  ⟨⟨by decide, by decide⟩, (sqrt_floor_bracket 10).2.2 3 ⟨by decide, by decide⟩⟩

/-- C5: for every magnitude `n` that is a perfect square, `is_square` returns
the root of `n` (the `r` with `r² = n`), not merely a success flag; for every
`n` that is not a perfect square it reports failure. -/
theorem is_square_returns_root :
    (∀ n r : Nat, is_square n = some r → r * r = n) ∧
    (∀ n : Nat, (∃ r, r * r = n) → ∃ r, is_square n = some r ∧ r * r = n) ∧
    (∀ n : Nat, ¬(∃ r, r * r = n) → is_square n = none) := by
  refine ⟨?_, ?_, ?_⟩
  · intro n r h
    unfold is_square at h
    by_cases hsq : sqrt_floor n * sqrt_floor n = n
    · simp only [hsq, if_pos] at h
      cases h
      exact hsq
    · simp [hsq] at h
  · intro n hn
    have h : Nat.sqrt n * Nat.sqrt n = n := (Nat.exists_mul_self n).mp hn
    refine ⟨Nat.sqrt n, ?_, h⟩
    unfold is_square
    rw [sqrt_floor_eq_sqrt]
    simp [h]
  · intro n hn
    have h : ¬ Nat.sqrt n * Nat.sqrt n = n := fun hc => hn ((Nat.exists_mul_self n).mpr hc)
    unfold is_square
    rw [sqrt_floor_eq_sqrt]
    simp [h]

/-- Witness for C5: `441 = 21²` is accepted with its root returned, and `2`
(not a perfect square, the hypothesis discharged concretely via `sqrt_floor`)
is rejected. -/
theorem is_square_returns_root_witness :
    (∃ r, is_square 441 = some r ∧ r * r = 441) ∧ is_square 2 = none :=
  ⟨is_square_returns_root.2.1 441 ⟨21, by decide⟩,
    is_square_returns_root.2.2 2 (by
      intro h
      obtain ⟨r, hr⟩ := h
      have hr2 : r ≤ 2 := by nlinarith
      interval_cases r <;> omega)⟩

/-! ## Primality testing: `ptest(n, k)`

Modelled from the spec: the `ptest` builtin (`zprime.c`) is not under `src/`;
`cal/guff.cal` only calls it (`guff_ptest`).  §4.A: "**Primality**
`ptest(n, k)` is Miller–Rabin with `k` witnesses; default witness count is
configurable.  Small-prime trial division precedes MR."  §8: the test is
deterministic when seeded; witness bases are drawn deterministically from the
range `[2, n-2]`. -/

/-- Modelled from the spec: left-to-right binary modular exponentiation
(§4.A `powmod`). -/
def powmod (a e m : Nat) : Nat :=
  if e = 0 then 1 % m
  else
    let h := powmod a (e / 2) m
    if e % 2 = 0 then h * h % m else h * h % m * a % m
termination_by e
decreasing_by exact Nat.div_lt_self (Nat.pos_of_ne_zero (by assumption)) (by decide)

/-- Split a positive integer as `2^s * d`: returns `(s, d)`. -/
def oddPart (n : Nat) : Nat × Nat :=
  if h : n = 0 ∨ n % 2 = 1 then (0, n)
  else
    let p := oddPart (n / 2)
    (p.1 + 1, p.2)
termination_by n
decreasing_by
  exact Nat.div_lt_self (Nat.pos_of_ne_zero (fun hz => h (Or.inl hz))) (by decide)

/-- The squaring chain of a Miller–Rabin witness: starting from `x`, square
modulo `n` up to `r` times, succeeding if `n - 1` is reached. -/
def mrLoop (n : Nat) : Nat → Nat → Bool
  | 0, _ => false
  | r + 1, x =>
      let x' := x * x % n
      if x' = n - 1 then true else mrLoop n r x'

/-- One Miller–Rabin witness `a` for `n`, with `n - 1 = 2^s * d`: the witness
passes if `a^d ≡ 1`, or `a^(2^j·d) ≡ -1 (mod n)` for some `j < s`. -/
def mrWitnessOK (n d s a : Nat) : Bool :=
  let x := powmod a d n
  if x = 1 ∨ x = n - 1 then true else mrLoop n (s - 1) x

/-- The primes below 100, used for the trial-division phase. -/
def smallPrimes : List Nat :=
  [2, 3, 5, 7, 11, 13, 17, 19, 23, 29, 31, 37, 41, 43, 47, 53, 59, 61, 67,
   71, 73, 79, 83, 89, 97]

/-- Modelled from the spec: small-prime trial division preceding MR (§4.A).
Returns a definite verdict (`some`) when a small prime divides `n`, and `none`
when the trial-division phase is inconclusive. -/
def trialDivide (n : Nat) : Option Bool :=
  match smallPrimes.find? (fun p => n % p == 0) with
  | some p => some (n == p)
  | none => none

/-- Modelled from the spec: the deterministic witness bases, drawn from
`[2, n-2]` (§8 "test is deterministic when seeded"). -/
def witnessBase (n i : Nat) : Nat := 2 + i % (n - 3)

/-- Modelled from the spec: `ptest(n, k)`, Miller–Rabin with `k` witnesses
preceded by small-prime trial division (§4.A).  Returns 1 for "probably
prime", 0 for composite. -/
def ptest (n k : Nat) : Nat :=
  if n < 2 then 0
  else
    match trialDivide n with
    | some true => 1
    | some false => 0
    | none =>
        let sd := oddPart (n - 1)
        if (List.range k).all (fun i => mrWitnessOK n sd.2 sd.1 (witnessBase n i)) then 1
        else 0

/-- `powmod` computes modular exponentiation. -/
theorem powmod_eq (a m : Nat) : ∀ e, powmod a e m = a ^ e % m := by
  intro e
  induction e using Nat.strong_induction_on with
  | _ e ih =>
    rw [powmod]
    by_cases he : e = 0
    · simp [he]
    · have hlt : e / 2 < e := Nat.div_lt_self (Nat.pos_of_ne_zero he) (by decide)
      rw [if_neg he, ih _ hlt]
      have hsq : a ^ (e / 2) % m * (a ^ (e / 2) % m) % m = a ^ (e / 2) * a ^ (e / 2) % m :=
        (Nat.mul_mod _ _ _).symm
      by_cases hpar : e % 2 = 0
      · rw [if_pos hpar, hsq, ← pow_add, show e / 2 + e / 2 = e by omega]
      · rw [if_neg hpar, hsq, Nat.mod_mul_mod, ← pow_add, ← pow_succ,
          show e / 2 + e / 2 + 1 = e by omega]

/-- `oddPart` decomposes a positive integer as a power of two times its odd
part. -/
theorem oddPart_spec : ∀ n, n = 2 ^ (oddPart n).1 * (oddPart n).2 := by
  intro n
  induction n using Nat.strong_induction_on with
  | _ n ih =>
    rw [oddPart]
    by_cases h : n = 0 ∨ n % 2 = 1
    · simp [h]
    · have hn0 : n ≠ 0 := fun hz => h (Or.inl hz)
      have hlt : n / 2 < n := Nat.div_lt_self (Nat.pos_of_ne_zero hn0) (by decide)
      have heven : n % 2 = 0 := by omega
      rw [dif_neg h]
      have := ih _ hlt
      simp only
      rw [pow_succ]
      calc n = n / 2 * 2 := by omega
        _ = 2 ^ (oddPart (n / 2)).1 * (oddPart (n / 2)).2 * 2 := by rw [← this]
        _ = 2 ^ (oddPart (n / 2)).1 * 2 * (oddPart (n / 2)).2 := by ring

/-- In the field `ZMod p`, a square root of 1 is `1` or `-1`. -/
theorem zmod_sq_eq_one {p : ℕ} [Fact p.Prime] (c : ZMod p) (h : c * c = 1) :
    c = 1 ∨ c = -1 := by
  have h2 : (c - 1) * (c + 1) = 0 := by linear_combination h
  rcases mul_eq_zero.mp h2 with h3 | h3
  · left; exact sub_eq_zero.mp h3
  · right; exact eq_neg_of_add_eq_zero_left h3

/-- The Miller–Rabin chain: if `b^(2^s) = 1` in `ZMod p` then `b = 1` or some
intermediate power `b^(2^j)` is `-1`. -/
theorem mr_chain {p : ℕ} [Fact p.Prime] (b : ZMod p) :
    ∀ s, b ^ (2 ^ s) = 1 → b = 1 ∨ ∃ j, j < s ∧ b ^ (2 ^ j) = -1 := by
  intro s
  induction s with
  | zero => intro h; left; simpa using h
  | succ s ih =>
    intro h
    have hc : b ^ (2 ^ s) * b ^ (2 ^ s) = 1 := by
      rw [← pow_add, show 2 ^ s + 2 ^ s = 2 ^ (s + 1) by rw [pow_succ]; omega]
      exact h
    rcases zmod_sq_eq_one _ hc with h1 | h1
    · rcases ih h1 with h2 | ⟨j, hj, h2⟩
      · exact Or.inl h2
      · exact Or.inr ⟨j, Nat.lt_succ_of_lt hj, h2⟩
    · exact Or.inr ⟨s, Nat.lt_succ_self s, h1⟩

/-- Completeness of the squaring chain search: if some power `x^(2^j)` with
`1 ≤ j ≤ r` reduces to `n - 1`, the loop reports success. -/
theorem mrLoop_complete (n : ℕ) :
    ∀ r x j, 1 ≤ j → j ≤ r → x ^ (2 ^ j) % n = n - 1 → mrLoop n r x = true := by
  intro r
  induction r with
  | zero => intro x j h1 h2 _; omega
  | succ r ih =>
    intro x j h1 h2 hj
    rw [mrLoop]
    by_cases hx : x * x % n = n - 1
    · simp [hx]
    · simp only [hx, if_neg, if_false]
      have hj1 : j ≠ 1 := by
        intro he
        subst he
        rw [pow_one, pow_two] at hj
        exact hx hj
      have hpow : (x * x % n) ^ (2 ^ (j - 1)) % n = x ^ (2 ^ j) % n := by
        rw [← Nat.pow_mod, ← pow_two, ← pow_mul,
          show 2 * 2 ^ (j - 1) = 2 ^ j by
            rw [← pow_succ']
            congr 1
            omega]
      exact ih (x * x % n) (j - 1) (by omega) (by omega) (by rw [hpow]; exact hj)

/-- Bridge between executable modular powers and `ZMod` equalities. -/
theorem pow_mod_eq_of_cast {p a e t : ℕ} (hp : 1 < p)
    (h : (a : ZMod p) ^ e = (t : ZMod p)) (ht : t < p) : a ^ e % p = t := by
  have hp0 : 0 < p := by omega
  have hcast : ((a ^ e : ℕ) : ZMod p) = (t : ZMod p) := by push_cast; exact h
  have := (ZMod.natCast_eq_natCast_iff' _ _ _).mp hcast
  rwa [Nat.mod_eq_of_lt ht] at this

/-- The cast of `p - 1` in `ZMod p` is `-1`. -/
theorem cast_p_sub_one {p : ℕ} (hp : 1 < p) : ((p - 1 : ℕ) : ZMod p) = -1 := by
  have : ((p - 1 : ℕ) : ZMod p) = (p : ZMod p) - 1 := by
    push_cast [Nat.cast_sub (by omega : 1 ≤ p)]
    ring
  rw [this, ZMod.natCast_self, zero_sub]

/-- Completeness of a Miller–Rabin witness on primes: for a prime `p` with
`p - 1 = 2^s * d` and a base `2 ≤ a ≤ p - 2`, the witness passes. -/
theorem mrWitnessOK_complete {p : ℕ} (hp : p.Prime) (hgt : 2 < p) (d s : ℕ)
    (hds : p - 1 = 2 ^ s * d) (a : ℕ) (ha2 : 2 ≤ a) (ha : a ≤ p - 2) :
    mrWitnessOK p d s a = true := by
  haveI : Fact p.Prime := ⟨hp⟩
  have hp1 : 1 < p := hp.one_lt
  have hane : (a : ZMod p) ≠ 0 := by
    rw [Ne, ZMod.natCast_zmod_eq_zero_iff_dvd]
    intro hdvd
    have := Nat.le_of_dvd (by omega) hdvd
    omega
  have hferm : (a : ZMod p) ^ (p - 1) = 1 := ZMod.pow_card_sub_one_eq_one hane
  have hb : ((a : ZMod p) ^ d) ^ (2 ^ s) = 1 := by
    rw [← pow_mul, mul_comm, ← hds]
    exact hferm
  rw [mrWitnessOK, powmod_eq]
  rcases mr_chain _ s hb with h1 | ⟨j, hj, h1⟩
  · have : a ^ d % p = 1 := by
      apply pow_mod_eq_of_cast hp1 _ hp1
      rw [h1]
      norm_num
    simp [this]
  · rcases Nat.eq_zero_or_pos j with hj0 | hjpos
    · subst hj0
      rw [pow_zero, pow_one] at h1
      have : a ^ d % p = p - 1 := by
        apply pow_mod_eq_of_cast hp1 _ (by omega)
        rw [h1, cast_p_sub_one hp1]
      simp [this]
    · by_cases hx : a ^ d % p = 1 ∨ a ^ d % p = p - 1
      · simp [hx]
      · rw [if_neg hx]
        apply mrLoop_complete p (s - 1) (a ^ d % p) j hjpos (by omega)
        rw [← Nat.pow_mod, ← pow_mul]
        apply pow_mod_eq_of_cast hp1 _ (by omega)
        rw [pow_mul, h1, cast_p_sub_one hp1]

/-- Every element of the trial-division list is at least 2. -/
theorem smallPrimes_two_le : ∀ p ∈ smallPrimes, 2 ≤ p := by decide

/-- `ptest` reports 1 on every prime, for every witness count. -/
theorem ptest_prime_eq_one (n k : ℕ) (hn : n.Prime) : ptest n k = 1 := by
  have hn2 := hn.two_le
  rw [ptest, if_neg (by omega : ¬ n < 2)]
  rcases hfind : smallPrimes.find? (fun p => n % p == 0) with _ | p
  · have hnd : ∀ p ∈ smallPrimes, n % p ≠ 0 := by
      intro p hp hmod
      have := List.find?_eq_none.mp hfind p hp
      simp [hmod] at this
    have h2 : n % 2 ≠ 0 := hnd 2 (by decide)
    have h3 : n % 3 ≠ 0 := hnd 3 (by decide)
    have hge : 5 ≤ n := by
      have := hn.two_le
      omega
    rw [trialDivide, hfind]
    simp only
    rw [if_pos]
    rw [List.all_eq_true]
    intro i hi
    apply mrWitnessOK_complete hn (by omega) _ _ (oddPart_spec (n - 1)) _
    · simp [witnessBase]
    · have : i % (n - 3) < n - 3 := Nat.mod_lt _ (by omega)
      rw [witnessBase]
      omega
  · have hmod : n % p = 0 := by
      have := List.find?_some hfind
      simpa using this
    have hmem : p ∈ smallPrimes := List.mem_of_find?_eq_some hfind
    have hp2 : 2 ≤ p := smallPrimes_two_le p hmem
    have hdvd : p ∣ n := Nat.dvd_of_mod_eq_zero hmod
    have : p = 1 ∨ p = n := (Nat.Prime.eq_one_or_self_of_dvd hn p) hdvd
    have hpn : p = n := by omega
    rw [trialDivide, hfind]
    simp [hpn]

/-- C4: `ptest(n, k)` performs Miller–Rabin primality testing with `k`
witnesses preceded by small-prime trial division; for every prime `n` and
every `k` it returns nonzero, and for the Carmichael number 561 with 5
witnesses it returns 0 (composite). -/
theorem ptest_spec :
    (∀ n k : ℕ, n.Prime → ptest n k ≠ 0) ∧ ptest 561 5 = 0 := by
  constructor
  · intro n k hn
    rw [ptest_prime_eq_one n k hn]
    omega
  · decide

/-- Witness for C4: 101 is prime and `ptest 101 5` is nonzero. -/
theorem ptest_spec_witness : Nat.Prime 101 ∧ ptest 101 5 ≠ 0 :=
  ⟨by norm_num, ptest_spec.1 101 5 (by norm_num)⟩

/-! ## The Fermat difference-of-squares factorizer (src/cal/guff.cal)

`fermat(N)` from `src/cal/guff.cal` (lines 170–194): after checking that `N`
is neither (probably) prime nor even, it walks `r = x² - N` upward by odd
increments until `r` is a perfect square, then returns `x - y` for the final
`x = (t-1)/2` and `y = isqrt(r)`.  The builtins `isqrt`, `issq` and `ptest`
it calls are the spec-modelled `sqrt_floor`, `is_square` and `ptest` above.
The unbounded `while` loop is embedded with explicit fuel `N` (proved
sufficient). -/

/-- `guff_ptest(N)` from `src/cal/guff.cal` (lines 61–78): `p = ptest(N);
if (p) p = ptest(N, 20); return p;`. -/
def guffPtest (N : Nat) : Nat :=
  let p := ptest N 1
  if p ≠ 0 then ptest N 20 else p

/-- Calc's `issq` on a (possibly negative) integer: true iff the value is a
perfect square; negative values are not squares. -/
def issqZ (z : ℤ) : Bool := decide (0 ≤ z) && (is_square z.toNat).isSome

/-- The `while (!issq(r)) r += t, t += 2;` loop of `fermat`, with fuel. -/
def fermatLoop : Nat → ℤ → ℤ → ℤ × ℤ
  | 0, r, t => (r, t)
  | fuel + 1, r, t => if issqZ r then (r, t) else fermatLoop fuel (r + t) (t + 2)

/-- `fermat(N)` from `src/cal/guff.cal`. -/
def fermat (N : Nat) : ℤ :=
  if guffPtest N ≠ 0 then 1
  else if N % 2 = 0 then 0
  else
    let x : ℤ := (sqrt_floor N : ℕ)
    let t : ℤ := 2 * x + 1
    let r : ℤ := x ^ 2 - N
    let rt := fermatLoop N r t
    let x' := (rt.2 - 1) / 2
    let y : ℤ := (sqrt_floor rt.1.toNat : ℕ)
    x' - y

/-- `sqrt_floor` of a perfect square is its root. -/
theorem sqrt_floor_mul_self (m : Nat) : sqrt_floor (m * m) = m := by
  rw [sqrt_floor_eq_sqrt]
  exact Nat.sqrt_eq m

/-- `is_square` accepts a perfect square and returns its root. -/
theorem is_square_mul_self (m : Nat) : is_square (m * m) = some m := by
  unfold is_square
  rw [sqrt_floor_mul_self]
  simp

/-- A successful `is_square` yields an actual root. -/
theorem is_square_eq_some (n r : Nat) (h : is_square n = some r) : r * r = n := by
  unfold is_square at h
  by_cases hsq : sqrt_floor n * sqrt_floor n = n
  · simp only [hsq, if_pos] at h
    cases h
    exact hsq
  · simp [hsq] at h

/-- Characterization of the integer perfect-square test. -/
theorem issqZ_iff (z : ℤ) : issqZ z = true ↔ 0 ≤ z ∧ ∃ m : ℕ, (m : ℤ) * m = z := by
  unfold issqZ
  rw [Bool.and_eq_true, decide_eq_true_eq]
  constructor
  · rintro ⟨h0, hsq⟩
    refine ⟨h0, ?_⟩
    rw [Option.isSome_iff_exists] at hsq
    obtain ⟨r, hr⟩ := hsq
    refine ⟨r, ?_⟩
    have hrr := is_square_eq_some _ _ hr
    have h2 : ((r * r : ℕ) : ℤ) = ((z.toNat : ℕ) : ℤ) := by rw [hrr]
    rw [Int.toNat_of_nonneg h0] at h2
    exact_mod_cast h2
  · rintro ⟨h0, m, hm⟩
    refine ⟨h0, ?_⟩
    have : z.toNat = m * m := by omega
    rw [this, is_square_mul_self]
    rfl

/-- If the first perfect square along the walk `c², (c+1)², …` (shifted by
`-N`) occurs after `k < fuel` steps, the loop stops exactly there. -/
theorem fermatLoop_hit (N : ℕ) :
    ∀ (k fuel : ℕ) (c : ℤ), k < fuel →
      issqZ ((c + k) ^ 2 - N) = true →
      (∀ j : ℕ, j < k → issqZ ((c + j) ^ 2 - N) = false) →
      fermatLoop fuel (c ^ 2 - N) (2 * c + 1) = ((c + k) ^ 2 - N, 2 * (c + k) + 1) := by
  intro k
  induction k with
  | zero =>
    intro fuel c hf hhit _
    match fuel, hf with
    | fuel + 1, _ =>
      rw [fermatLoop]
      simp only [Nat.cast_zero, add_zero] at hhit ⊢
      rw [if_pos hhit]
  | succ k ih =>
    intro fuel c hf hhit hmiss
    match fuel, hf with
    | fuel + 1, _ =>
      rw [fermatLoop]
      have h0 : issqZ (c ^ 2 - N) = false := by
        have := hmiss 0 (Nat.succ_pos k)
        simpa using this
      rw [h0]
      simp only [Bool.false_eq_true, if_false]
      rw [show c ^ 2 - (N : ℤ) + (2 * c + 1) = (c + 1) ^ 2 - N by ring,
        show 2 * c + 1 + 2 = 2 * (c + 1) + 1 by ring]
      have hres := ih fuel (c + 1) (by omega)
        (by rw [show (c + 1) + (k : ℤ) = c + (k + 1 : ℕ) by push_cast; ring]; exact hhit)
        (fun j hj => by
          rw [show (c + 1) + (j : ℤ) = c + (j + 1 : ℕ) by push_cast; ring]
          exact hmiss (j + 1) (by omega))
      rw [hres, show (c + 1) + (k : ℤ) = c + (k + 1 : ℕ) by push_cast; ring]

/-- A zero verdict from `guff_ptest` implies the number is not prime (the
Miller–Rabin side of `ptest` never rejects a prime). -/
theorem not_prime_of_guffPtest_eq_zero {N : ℕ} (h : guffPtest N = 0) : ¬ N.Prime := by
  intro hp
  unfold guffPtest at h
  rw [ptest_prime_eq_one N 1 hp] at h
  simp only [ne_eq, one_ne_zero, not_false_eq_true, if_pos] at h
  rw [ptest_prime_eq_one N 20 hp] at h
  exact one_ne_zero h

/-- Arithmetic helper: `(a+b+1)² - (2a+1)(2b+1) = (a-b)² ≥ 0`. -/
theorem fermat_sq_ineq (a b : ℤ) :
    4 * (a * b) + 2 * a + 2 * b + 1 ≤ (a + b + 1) * (a + b + 1) := by
  nlinarith [sq_nonneg (a - b)]

/-- Arithmetic helper: a factor with positive cofactor and positive product is
positive. -/
theorem fermat_f_pos {f c m n : ℤ} (hp : f * (c + m) = n) (hn : 0 < n)
    (hm : 0 ≤ m) (hc : 1 ≤ c) : 0 < f := by
  by_contra h
  push_neg at h
  have h1 : (0 : ℤ) ≤ c + m := by linarith
  have h2 : 0 ≤ (-f) * (c + m) := mul_nonneg (by linarith) h1
  nlinarith [h2]

/-- Arithmetic helper: a positive integer whose square is at most `n ≥ 2` is
less than `n`. -/
theorem fermat_f_lt {f n : ℤ} (hff : f * f ≤ n) (hn : 2 ≤ n) (hf : 1 ≤ f) :
    f < n := by
  by_contra h
  push_neg at h
  have h0 : (0 : ℤ) ≤ f := le_trans zero_le_one hf
  have h1 : n * n ≤ f * f := mul_le_mul h h (by linarith) h0
  nlinarith

/-- Arithmetic helper: the trivial representation `c = (n+1)/2` lies strictly
beyond `a + b + 1` when `n = (2a+1)(2b+1)` with `a, b ≥ 1`. -/
theorem fermat_no_trivial {a b c n : ℤ} (habc : c ≤ a + b + 1)
    (h2c : 2 * c = n + 1) (hn : n = 4 * (a * b) + 2 * a + 2 * b + 1)
    (ha : 1 ≤ a) (hb : 1 ≤ b) : False := by
  nlinarith [mul_le_mul ha hb (by linarith) (by linarith)]

set_option maxHeartbeats 2000000 in
/-- C9: for every odd composite integer `N` (i.e. `guff_ptest(N)` reports
composite and `N` is odd, so `fermat`'s sanity checks pass), the search loop
of `fermat(N)` terminates on a perfect square and the returned value `x - y`
is a nontrivial divisor of `N`: `1 < x - y < N` and `(x - y) ∣ N`. -/
theorem fermat_nontrivial_factor (N : ℕ) (hodd : N % 2 = 1) (hN : 1 < N)
    (hcomp : guffPtest N = 0) :
    issqZ (fermatLoop N (((sqrt_floor N : ℕ) : ℤ) ^ 2 - N)
        (2 * ((sqrt_floor N : ℕ) : ℤ) + 1)).1 = true ∧
    1 < fermat N ∧ fermat N < (N : ℤ) ∧ fermat N ∣ (N : ℤ) := by
  classical
  -- Composite structure: N = u * v with odd 3 ≤ u ≤ v < N.
  have hnp : ¬ N.Prime := not_prime_of_guffPtest_eq_zero hcomp
  obtain ⟨u₀, hu₀d, hu₀2, hu₀lt⟩ := Nat.exists_dvd_of_not_prime2 (by omega) hnp
  have hu₀pos : 0 < u₀ := by omega
  have hdiv2 : N / u₀ * u₀ = N := Nat.div_mul_cancel hu₀d
  have hq2 : 2 ≤ N / u₀ := by
    rcases Nat.lt_or_ge (N / u₀) 2 with h | h
    · interval_cases h' : N / u₀ <;> omega
    · exact h
  set u := min u₀ (N / u₀) with hu_def
  set v := max u₀ (N / u₀) with hv_def
  have huv : u * v = N := by
    rcases le_total u₀ (N / u₀) with h | h
    · rw [hu_def, hv_def, min_eq_left h, max_eq_right h, Nat.mul_div_cancel' hu₀d]
    · rw [hu_def, hv_def, min_eq_right h, max_eq_left h, hdiv2]
  have hu2 : 2 ≤ u := le_min hu₀2 hq2
  have hv2 : 2 ≤ v := le_trans hu₀2 (le_max_left _ _)
  have hulev : u ≤ v := min_le_max
  have huodd : u % 2 = 1 := by
    rcases Nat.even_or_odd u with he | ho
    · exfalso
      obtain ⟨w, hw⟩ := he
      have h2 : N = 2 * (w * v) := by
        rw [← huv, hw]
        ring
      omega
    · exact Nat.odd_iff.mp ho
  have hvodd : v % 2 = 1 := by
    rcases Nat.even_or_odd v with he | ho
    · exfalso
      obtain ⟨w, hw⟩ := he
      have h2 : N = 2 * (u * w) := by
        rw [← huv, hw]
        ring
      omega
    · exact Nat.odd_iff.mp ho
  obtain ⟨a, ha⟩ : ∃ a, u = 2 * a + 1 := ⟨u / 2, by omega⟩
  obtain ⟨b, hb⟩ : ∃ b, v = 2 * b + 1 := ⟨v / 2, by omega⟩
  have ha1 : 1 ≤ a := by omega
  have hb1 : 1 ≤ b := by omega
  have hab : a ≤ b := by omega
  have hNprod : N = 4 * (a * b) + 2 * a + 2 * b + 1 := by
    rw [← huv, ha, hb]
    ring
  have hab1 : 1 ≤ a * b := Nat.one_le_iff_ne_zero.mpr (by positivity)
  have hN9 : 9 ≤ N := by omega
  -- The integer square root of N.
  set x0 := sqrt_floor N with hx0_def
  clear_value x0
  have hx0eq : x0 = Nat.sqrt N := by rw [hx0_def]; exact sqrt_floor_eq_sqrt N
  have hx0le : x0 * x0 ≤ N := by rw [hx0eq]; exact Nat.sqrt_le N
  have hx0lt : N < (x0 + 1) * (x0 + 1) := by rw [hx0eq]; exact Nat.lt_succ_sqrt N
  have hx0pos : 3 ≤ x0 := by
    rcases Nat.lt_or_ge x0 3 with h | h
    · exfalso
      interval_cases x0 <;> omega
    · exact h
  -- The candidate hit at c = a + b + 1 (i.e. (u+v)/2).
  have hcand_ge : x0 ≤ a + b + 1 := by
    have hNZ2 : (N : ℤ) = 4 * ((a : ℤ) * b) + 2 * a + 2 * b + 1 := by exact_mod_cast hNprod
    have h2 : (N : ℤ) ≤ ((a : ℤ) + b + 1) * ((a : ℤ) + b + 1) := by
      rw [hNZ2]
      exact fermat_sq_ineq _ _
    have h1 : N ≤ (a + b + 1) * (a + b + 1) := by exact_mod_cast h2
    calc x0 = Nat.sqrt N := hx0eq
      _ ≤ Nat.sqrt ((a + b + 1) * (a + b + 1)) := Nat.sqrt_le_sqrt h1
      _ = a + b + 1 := Nat.sqrt_eq _
  set kc := (a + b + 1) - x0 with hkc_def
  clear_value kc
  have hkc_c : x0 + kc = a + b + 1 := by omega
  have hit_kc : issqZ (((x0 : ℤ) + (kc : ℕ)) ^ 2 - N) = true := by
    rw [issqZ_iff]
    have hcval : ((x0 : ℤ) + (kc : ℕ)) = ((a : ℤ) + b + 1) := by
      exact_mod_cast hkc_c
    constructor
    · rw [hcval]
      have hNZ2 : (N : ℤ) = 4 * ((a : ℤ) * b) + 2 * a + 2 * b + 1 := by
        exact_mod_cast hNprod
      have hkey := fermat_sq_ineq (a : ℤ) (b : ℤ)
      have hsq : ((a : ℤ) + b + 1) ^ 2 = ((a : ℤ) + b + 1) * ((a : ℤ) + b + 1) := sq _
      rw [hNZ2, hsq]
      linarith
    · refine ⟨b - a, ?_⟩
      rw [hcval]
      have hba : ((b - a : ℕ) : ℤ) = (b : ℤ) - a := by
        push_cast [Nat.cast_sub hab]
        ring
      rw [hba]
      push_cast [hNprod]
      ring
  -- The first hit.
  have hex : ∃ k : ℕ, issqZ (((x0 : ℤ) + k) ^ 2 - N) = true := ⟨kc, hit_kc⟩
  set ks := Nat.find hex with hks_def
  clear_value ks
  have hks_hit : issqZ (((x0 : ℤ) + ks) ^ 2 - N) = true := by
    rw [hks_def]; exact Nat.find_spec hex
  have hks_le : ks ≤ kc := by rw [hks_def]; exact Nat.find_min' hex hit_kc
  have hks_miss : ∀ j : ℕ, j < ks → issqZ (((x0 : ℤ) + j) ^ 2 - N) = false := by
    intro j hj
    rw [hks_def] at hj
    have := Nat.find_min hex hj
    simpa using this
  have hfuel : ks < N := by omega
  -- Run the loop.
  have hloop := fermatLoop_hit N ks N (x0 : ℤ) hfuel hks_hit hks_miss
  refine ⟨by rw [hloop]; exact hks_hit, ?_⟩
  -- Unfold fermat.
  have hgp : ¬ (guffPtest N ≠ 0) := by simp [hcomp]
  rw [fermat, if_neg hgp, if_neg (by omega : ¬ N % 2 = 0)]
  simp only
  rw [← hx0_def, hloop]
  -- Extract the square root of the final r.
  obtain ⟨hrpos, m, hm⟩ := (issqZ_iff _).mp hks_hit
  set c : ℤ := (x0 : ℤ) + ks with hc_def
  have htoNat : (c ^ 2 - (N : ℤ)).toNat = m * m := by omega
  have hy : sqrt_floor ((c ^ 2 - (N : ℤ)).toNat) = m := by
    rw [htoNat, sqrt_floor_mul_self]
  have hx' : (2 * c + 1 - 1) / 2 = c := by
    rw [show 2 * c + 1 - 1 = 2 * c by ring]
    exact Int.mul_ediv_cancel_left c two_ne_zero
  rw [hx', hy]
  -- The factor.
  set f : ℤ := c - m with hf_def
  have hprod : f * (c + m) = N := by
    have hcc : c ^ 2 - (N : ℤ) = (m : ℤ) * m := hm.symm
    rw [hf_def]
    linear_combination hcc
  have hcge : (3 : ℤ) ≤ c := by
    rw [hc_def]
    have : (3 : ℤ) ≤ (x0 : ℤ) := by exact_mod_cast hx0pos
    have h2 : (0 : ℤ) ≤ (ks : ℕ) := Int.natCast_nonneg _
    omega
  have hm0 : (0 : ℤ) ≤ (m : ℤ) := Int.natCast_nonneg _
  have hNZ : (9 : ℤ) ≤ (N : ℤ) := by exact_mod_cast hN9
  have hfpos : 0 < f := fermat_f_pos hprod (by linarith) hm0 (by linarith)
  -- f ≠ 1: otherwise the hit would be the trivial one, contradicting
  -- that the composite hit kc comes strictly earlier.
  have hcle : c ≤ ((a + b + 1 : ℕ) : ℤ) := by
    rw [hc_def]
    have h1 : (ks : ℤ) ≤ (kc : ℤ) := by exact_mod_cast hks_le
    have h2 : ((x0 : ℕ) : ℤ) + kc = ((a + b + 1 : ℕ) : ℤ) := by exact_mod_cast hkc_c
    omega
  have hf1 : f ≠ 1 := by
    intro h1
    have hsum : c + m = N := by
      rw [← hprod, h1]
      ring
    have h2c : 2 * c = (N : ℤ) + 1 := by omega
    have habZ : ((a + b + 1 : ℕ) : ℤ) = (a : ℤ) + b + 1 := by push_cast; ring
    have hNZ2 : (N : ℤ) = 4 * ((a : ℤ) * b) + 2 * a + 2 * b + 1 := by
      exact_mod_cast hNprod
    have haZ : (1 : ℤ) ≤ (a : ℤ) := by exact_mod_cast ha1
    have hbZ : (1 : ℤ) ≤ (b : ℤ) := by exact_mod_cast hb1
    rw [habZ] at hcle
    exact fermat_no_trivial hcle h2c hNZ2 haZ hbZ
  have hflt : f < (N : ℤ) := by
    have hfle : f ≤ c + m := by omega
    have hff : f * f ≤ (N : ℤ) := by
      calc f * f ≤ f * (c + m) := mul_le_mul_of_nonneg_left hfle (le_of_lt hfpos)
        _ = N := hprod
    exact fermat_f_lt hff (by linarith) (by linarith)
  refine ⟨by omega, hflt, ⟨c + m, hprod.symm⟩⟩

/-- Witness for C9: `N = 9` is odd, greater than 1, and reported composite by
`guff_ptest`; `fermat 9` finds the nontrivial divisor 3 (the loop accepts the
initial `r = 0`). -/
theorem fermat_nontrivial_factor_witness :
    (9 % 2 = 1 ∧ 1 < 9 ∧ guffPtest 9 = 0) ∧
    (1 < fermat 9 ∧ fermat 9 < (9 : ℤ) ∧ fermat 9 ∣ (9 : ℤ)) :=
  ⟨⟨rfl, by omega, by decide⟩,
    (fermat_nontrivial_factor 9 rfl (by omega) (by decide)).2⟩

/-! ## The transcendental cosine `cos(x, eps)`

Modelled from the spec: the transcendental layer (`qmath` transcendentals,
`qcos`, `c_cos`) is not under `src/`; `src/unnamed/part_000` is only the help
document for `cos`.  §4.C: every function takes `(x, eps)` with `eps > 0` and
returns a rational (or complex of rationals) `y` with `|y − f(x)| < 0.75·eps`
in the appropriate norm; `sin`/`cos` use the alternating Taylor series with
the standard truncation bound.  The model computes the Taylor partial sum
directly with enough terms for the truncation bound (the `mod 2π` argument
reduction of the source, a performance device, is omitted; the series
converges for every argument and the truncation bound is enforced
directly). -/

/-- Fuel-based binary logarithm (structural recursion, so that concrete
instances evaluate inside the kernel). -/
def log2fuel : ℕ → ℕ → ℕ
  | 0, _ => 0
  | fuel + 1, n => if 2 ≤ n then log2fuel fuel (n / 2) + 1 else 0

/-- Executable ceiling on rationals. -/
def qceil (q : ℚ) : ℤ := -Rat.floor (-q)

/-- The Taylor partial sum of cosine over the rationals. -/
def cosTaylor (x : ℚ) (N : ℕ) : ℚ :=
  ∑ n ∈ Finset.range N, (-1) ^ n * x ^ (2 * n) / ((2 * n).factorial : ℚ)

/-- Index from which the Taylor terms of magnitude `M` at least halve. -/
def taylorN0 (M : ℚ) : ℕ := (qceil (M ^ 2)).toNat + 1

/-- The Taylor term magnitude at the halving index. -/
def taylorT0 (M : ℚ) : ℚ := M ^ (2 * taylorN0 M) / ((2 * taylorN0 M).factorial : ℚ)

/-- Number of extra halvings needed to push the truncation error below
`eps / 4`. -/
def taylorM (M eps : ℚ) : ℕ :=
  log2fuel (qceil (4 * taylorT0 M / eps)).toNat (qceil (4 * taylorT0 M / eps)).toNat + 1

/-- Modelled from the spec: the number of Taylor terms guaranteeing the §4.C
truncation bound for argument magnitude `M` and precision `eps`. -/
def taylorN (M eps : ℚ) : ℕ := taylorN0 M + taylorM M eps

/-- Modelled from the spec: `qcos(x, eps)`, the real cosine computed by its
alternating Taylor series with the standard truncation bound (§4.C). -/
def qcos (x eps : ℚ) : ℚ := cosTaylor x (taylorN |x| eps)

/-- Gaussian-rational multiplication (the complex layer of §3/§4.D over
pairs of rationals). -/
def gqMul (a b : ℚ × ℚ) : ℚ × ℚ := (a.1 * b.1 - a.2 * b.2, a.1 * b.2 + a.2 * b.1)

/-- Gaussian-rational power. -/
def gqPow (z : ℚ × ℚ) : ℕ → ℚ × ℚ
  | 0 => (1, 0)
  | n + 1 => gqMul (gqPow z n) z

/-- Scalar multiple of a Gaussian rational. -/
def gqSmul (c : ℚ) (z : ℚ × ℚ) : ℚ × ℚ := (c * z.1, c * z.2)

/-- The Taylor partial sum of cosine over the Gaussian rationals. -/
def ccosTaylor (z : ℚ × ℚ) (N : ℕ) : ℚ × ℚ :=
  ∑ n ∈ Finset.range N, gqSmul ((-1) ^ n / ((2 * n).factorial : ℚ)) (gqPow z (2 * n))

/-- The rational 1-norm of a Gaussian rational, an upper bound for the
complex absolute value. -/
def cnorm1 (z : ℚ × ℚ) : ℚ := |z.1| + |z.2|

/-- Modelled from the spec: `c_cos(z, eps)`, the complex cosine on complex
rationals (§4.C/§4.D), Taylor series with the truncation bound taken in the
complex norm. -/
def ccos (z : ℚ × ℚ) (eps : ℚ) : ℚ × ℚ := ccosTaylor z (taylorN (cnorm1 z) eps)

/-- The embedding of a Gaussian rational into `ℂ`. -/
def toC (z : ℚ × ℚ) : ℂ := ⟨(z.1 : ℝ), (z.2 : ℝ)⟩

/-- Modelled from the spec: fixed-point display of a rational at `d`
fractional digits (§4.E.3/§6 `display`): the integer formed by the first `d`
fractional digits of a value in `[0, 1)`. -/
def displayFixed (d : ℕ) (q : ℚ) : ℤ := Rat.floor (q * 10 ^ d)

/-- `Rat.floor` is the floor. -/
theorem rat_floor_eq (q : ℚ) : Rat.floor q = ⌊q⌋ := by
  rw [Rat.floor_def', ← Rat.floor_def]

/-- `qceil` is the ceiling. -/
theorem qceil_eq (q : ℚ) : qceil q = ⌈q⌉ := by
  rw [qceil, rat_floor_eq, Int.floor_neg, neg_neg]

/-- The fuel-based logarithm bounds its argument when given enough fuel. -/
theorem log2fuel_lt : ∀ fuel n : ℕ, n ≤ fuel → n < 2 ^ (log2fuel fuel n + 1) := by
  intro fuel
  induction fuel with
  | zero =>
    intro n h
    interval_cases n
    decide
  | succ fuel ih =>
    intro n h
    rw [log2fuel]
    by_cases h2 : 2 ≤ n
    · rw [if_pos h2]
      have hle : n / 2 ≤ fuel := by omega
      have := ih (n / 2) hle
      rw [pow_succ]
      omega
    · rw [if_neg h2]
      omega

/-- The square of the magnitude is at most the halving index. -/
theorem sq_le_taylorN0 (M : ℚ) : M ^ 2 ≤ (taylorN0 M : ℚ) := by
  have h1 : M ^ 2 ≤ (⌈M ^ 2⌉ : ℚ) := Int.le_ceil _
  have h2 : (⌈M ^ 2⌉ : ℤ) ≤ ((⌈M ^ 2⌉).toNat : ℤ) := Int.self_le_toNat _
  have h3 : ((⌈M ^ 2⌉ : ℤ) : ℚ) ≤ (((⌈M ^ 2⌉).toNat : ℤ) : ℚ) := by exact_mod_cast h2
  rw [taylorN0, qceil_eq]
  push_cast
  push_cast at h3
  linarith

/-- The halving count drives the geometric factor below `eps / (4 T0)`. -/
theorem taylorM_large (M eps : ℚ) (hM : 0 ≤ M) (heps : 0 < eps) :
    4 * taylorT0 M / eps < 2 ^ taylorM M eps := by
  have hT0 : 0 ≤ taylorT0 M := by
    rw [taylorT0]
    apply div_nonneg (pow_nonneg hM _)
    exact_mod_cast Nat.zero_le _
  set y : ℚ := 4 * taylorT0 M / eps with hy_def
  have hy0 : 0 ≤ y := by
    rw [hy_def]
    apply div_nonneg (by linarith) (le_of_lt heps)
  have h1 : y ≤ (⌈y⌉ : ℚ) := Int.le_ceil _
  have h2 : ((⌈y⌉ : ℤ) : ℚ) ≤ ((⌈y⌉.toNat : ℤ) : ℚ) := by
    exact_mod_cast Int.self_le_toNat _
  have h3 := log2fuel_lt (⌈y⌉.toNat) (⌈y⌉.toNat) le_rfl
  have h4 : ((⌈y⌉.toNat : ℕ) : ℚ) < (2 : ℚ) ^ (log2fuel (⌈y⌉.toNat) (⌈y⌉.toNat) + 1) := by
    exact_mod_cast h3
  rw [taylorM, qceil_eq]
  push_cast at h2
  calc y ≤ (⌈y⌉ : ℚ) := h1
    _ ≤ ((⌈y⌉.toNat : ℕ) : ℚ) := h2
    _ < (2 : ℚ) ^ (log2fuel (⌈y⌉.toNat) (⌈y⌉.toNat) + 1) := h4

/-- Series tail bound: if from index `N` on the terms are dominated by a
halving geometric sequence starting at `T`, the sum is within `2T` of the
`N`-th partial sum. -/
theorem tail_norm_bound {E : Type*} [NormedAddCommGroup E] [CompleteSpace E]
    (f : ℕ → E) (L : E) (hf : HasSum f L) (N : ℕ) (T : ℝ)
    (hb : ∀ j : ℕ, ‖f (j + N)‖ ≤ T * (1 / 2) ^ j) :
    ‖L - ∑ i ∈ Finset.range N, f i‖ ≤ 2 * T := by
  have htail : HasSum (fun j => f (j + N)) (L - ∑ i ∈ Finset.range N, f i) :=
    (hasSum_nat_add_iff' N).mpr hf
  have hmaj : Summable (fun j : ℕ => T * (1 / 2 : ℝ) ^ j) :=
    (summable_geometric_of_lt_one (by norm_num) (by norm_num)).mul_left T
  have hsn : Summable (fun j => ‖f (j + N)‖) :=
    Summable.of_nonneg_of_le (fun j => norm_nonneg _) hb hmaj
  have h1 : ‖L - ∑ i ∈ Finset.range N, f i‖ ≤ tsum (fun j => ‖f (j + N)‖) := by
    rw [← htail.tsum_eq]
    exact norm_tsum_le_tsum_norm hsn
  have h2 : tsum (fun j => ‖f (j + N)‖) ≤ tsum (fun j : ℕ => T * (1 / 2 : ℝ) ^ j) :=
    tsum_le_tsum hb hsn hmaj
  have h3 : tsum (fun j : ℕ => T * (1 / 2 : ℝ) ^ j) = 2 * T := by
    rw [tsum_mul_left, tsum_geometric_of_lt_one (by norm_num) (by norm_num)]
    norm_num [mul_comm]
  linarith

/-- One halving step for the Taylor term magnitudes. -/
theorem cosTerm_step (M : ℝ) (hM : 0 ≤ M) (n : ℕ)
    (h : 2 * M ^ 2 ≤ (2 * (n : ℝ) + 1) * (2 * (n : ℝ) + 2)) :
    M ^ (2 * (n + 1)) / ((2 * (n + 1)).factorial : ℝ)
      ≤ M ^ (2 * n) / ((2 * n).factorial : ℝ) * (1 / 2) := by
  have hfact : ((2 * (n + 1)).factorial : ℝ)
      = ((2 * n + 2 : ℕ) : ℝ) * (((2 * n + 1 : ℕ) : ℝ) * ((2 * n).factorial : ℝ)) := by
    rw [show 2 * (n + 1) = 2 * n + 1 + 1 by ring, Nat.factorial_succ, Nat.factorial_succ]
    push_cast
    try ring
  have hpow : M ^ (2 * (n + 1)) = M ^ (2 * n) * M ^ 2 := by
    rw [show 2 * (n + 1) = 2 * n + 2 by ring, pow_add]
  have hF : (0 : ℝ) < ((2 * n).factorial : ℝ) := by
    exact_mod_cast Nat.factorial_pos _
  have hD : (0 : ℝ) < (2 * (n : ℝ) + 1) * (2 * (n : ℝ) + 2) := by positivity
  have hA : (0 : ℝ) ≤ M ^ (2 * n) := pow_nonneg hM _
  have hD2 : (0 : ℝ) < ((2 * n + 2 : ℕ) : ℝ) * (((2 * n + 1 : ℕ) : ℝ) * ((2 * n).factorial : ℝ)) := by
    positivity
  rw [hfact, hpow, div_mul_eq_mul_div, div_le_div_iff hD2 hF]
  push_cast
  nlinarith [mul_le_mul_of_nonneg_right (mul_le_mul_of_nonneg_left h hA) hF.le, hF, hA]

/-- Iterated halving of the Taylor term magnitudes past the halving index. -/
theorem cosTerm_decay (M : ℝ) (hM : 0 ≤ M) (N : ℕ) (hN : M ^ 2 ≤ (N : ℝ)) :
    ∀ j : ℕ, M ^ (2 * (N + j)) / ((2 * (N + j)).factorial : ℝ)
      ≤ M ^ (2 * N) / ((2 * N).factorial : ℝ) * (1 / 2) ^ j := by
  intro j
  induction j with
  | zero => simp
  | succ j ih =>
    have hcond : 2 * M ^ 2 ≤ (2 * ((N + j : ℕ) : ℝ) + 1) * (2 * ((N + j : ℕ) : ℝ) + 2) := by
      have h0 : (0 : ℝ) ≤ (j : ℝ) := Nat.cast_nonneg _
      have h1 : (N : ℝ) ≤ ((N + j : ℕ) : ℝ) := by push_cast; linarith
      nlinarith [Nat.cast_nonneg (α := ℝ) N]
    have hstep := cosTerm_step M hM (N + j) hcond
    calc M ^ (2 * (N + (j + 1))) / ((2 * (N + (j + 1))).factorial : ℝ)
        = M ^ (2 * ((N + j) + 1)) / ((2 * ((N + j) + 1)).factorial : ℝ) := by
          rw [show N + (j + 1) = (N + j) + 1 by ring]
      _ ≤ M ^ (2 * (N + j)) / ((2 * (N + j)).factorial : ℝ) * (1 / 2) := hstep
      _ ≤ M ^ (2 * N) / ((2 * N).factorial : ℝ) * (1 / 2) ^ j * (1 / 2) := by
          apply mul_le_mul_of_nonneg_right ih (by norm_num)
      _ = M ^ (2 * N) / ((2 * N).factorial : ℝ) * (1 / 2) ^ (j + 1) := by ring

/-- The norm of a real cosine Taylor term. -/
theorem cos_term_norm (x : ℝ) (n : ℕ) :
    ‖(-1 : ℝ) ^ n * x ^ (2 * n) / ((2 * n).factorial : ℝ)‖
      = |x| ^ (2 * n) / ((2 * n).factorial : ℝ) := by
  rw [Real.norm_eq_abs, abs_div, abs_mul, abs_pow, abs_pow, abs_neg, abs_one, one_pow, one_mul,
    Nat.abs_cast]

/-- Cast of the rational Taylor sum into the reals. -/
theorem cosTaylor_cast (x : ℚ) (N : ℕ) :
    ((cosTaylor x N : ℚ) : ℝ)
      = ∑ n ∈ Finset.range N, (-1 : ℝ) ^ n * (x : ℝ) ^ (2 * n) / ((2 * n).factorial : ℝ) := by
  rw [cosTaylor]
  push_cast
  rfl

/-- Twice the Taylor term magnitude at `taylorN` is below `eps / 2`. -/
theorem taylor_term_small (M eps : ℚ) (hM : 0 ≤ M) (heps : 0 < eps) :
    2 * ((M : ℝ) ^ (2 * taylorN M eps) / ((2 * taylorN M eps).factorial : ℝ))
      < (eps : ℝ) / 2 := by
  have hbig := taylorM_large M eps hM heps
  have hcond : (M : ℝ) ^ 2 ≤ ((taylorN0 M : ℕ) : ℝ) := by
    exact_mod_cast sq_le_taylorN0 M
  have hdecay := cosTerm_decay (M : ℝ) (by exact_mod_cast hM) (taylorN0 M) hcond
    (taylorM M eps)
  have hT0cast : ((taylorT0 M : ℚ) : ℝ)
      = (M : ℝ) ^ (2 * taylorN0 M) / ((2 * taylorN0 M).factorial : ℝ) := by
    rw [taylorT0]
    push_cast
    rfl
  have h2m : (0 : ℚ) < 2 ^ taylorM M eps := by positivity
  have key : 4 * taylorT0 M < eps * 2 ^ taylorM M eps := by
    rw [div_lt_iff heps] at hbig
    linarith
  have hq : taylorT0 M * (1 / 2) ^ taylorM M eps < eps / 4 := by
    rw [div_pow, one_pow, mul_one_div, div_lt_div_iff h2m (by norm_num : (0 : ℚ) < 4)]
    linarith
  have hqR : ((taylorT0 M * (1 / 2) ^ taylorM M eps : ℚ) : ℝ) < ((eps / 4 : ℚ) : ℝ) := by
    exact_mod_cast hq
  push_cast at hqR
  rw [hT0cast] at hqR
  have hterm := hdecay
  rw [taylorN]
  calc 2 * ((M : ℝ) ^ (2 * (taylorN0 M + taylorM M eps))
        / ((2 * (taylorN0 M + taylorM M eps)).factorial : ℝ))
      ≤ 2 * ((M : ℝ) ^ (2 * taylorN0 M) / ((2 * taylorN0 M).factorial : ℝ)
          * (1 / 2) ^ taylorM M eps) := by
        linarith [hterm]
    _ < 2 * ((eps : ℝ) / 4) := by linarith
    _ = (eps : ℝ) / 2 := by ring

/-- The real cosine contract: `qcos` is within `0.75·eps` of `cos`. -/
theorem qcos_spec (x eps : ℚ) (heps : 0 < eps) :
    |Real.cos (x : ℝ) - ((qcos x eps : ℚ) : ℝ)| < 3 / 4 * (eps : ℝ) := by
  have hM0 : (0 : ℚ) ≤ |x| := abs_nonneg x
  have hMcast : ((|x| : ℚ) : ℝ) = |(x : ℝ)| := by push_cast; rfl
  set N := taylorN |x| eps with hN_def
  have hcond : |(x : ℝ)| ^ 2 ≤ (N : ℝ) := by
    have h1 : ((|x| : ℚ) : ℝ) ^ 2 ≤ ((taylorN0 |x| : ℕ) : ℝ) := by
      exact_mod_cast sq_le_taylorN0 |x|
    have h2 : (taylorN0 |x| : ℕ) ≤ N := by
      rw [hN_def, taylorN]
      omega
    have h2' : ((taylorN0 |x| : ℕ) : ℝ) ≤ (N : ℝ) := by exact_mod_cast h2
    rw [hMcast] at h1
    linarith
  have hb : ∀ j : ℕ,
      ‖(-1 : ℝ) ^ (j + N) * (x : ℝ) ^ (2 * (j + N)) / ((2 * (j + N)).factorial : ℝ)‖
        ≤ |(x : ℝ)| ^ (2 * N) / ((2 * N).factorial : ℝ) * (1 / 2) ^ j := by
    intro j
    rw [cos_term_norm]
    have := cosTerm_decay |(x : ℝ)| (abs_nonneg _) N hcond j
    rw [show j + N = N + j by ring]
    exact this
  have htb := tail_norm_bound
    (fun n => (-1 : ℝ) ^ n * (x : ℝ) ^ (2 * n) / ((2 * n).factorial : ℝ))
    (Real.cos (x : ℝ)) (Real.hasSum_cos (x : ℝ)) N
    (|(x : ℝ)| ^ (2 * N) / ((2 * N).factorial : ℝ)) hb
  have hsmall := taylor_term_small |x| eps hM0 heps
  rw [hMcast] at hsmall
  have hcast : ((qcos x eps : ℚ) : ℝ)
      = ∑ n ∈ Finset.range N, (-1 : ℝ) ^ n * (x : ℝ) ^ (2 * n) / ((2 * n).factorial : ℝ) := by
    rw [qcos, ← hN_def, cosTaylor_cast]
  rw [← Real.norm_eq_abs, hcast]
  have heps' : (0 : ℝ) < (eps : ℝ) := by exact_mod_cast heps
  calc ‖Real.cos (x : ℝ)
        - ∑ n ∈ Finset.range N, (-1 : ℝ) ^ n * (x : ℝ) ^ (2 * n) / ((2 * n).factorial : ℝ)‖
      ≤ 2 * (|(x : ℝ)| ^ (2 * N) / ((2 * N).factorial : ℝ)) := htb
    _ < (eps : ℝ) / 2 := hsmall
    _ < 3 / 4 * (eps : ℝ) := by linarith

/-- `toC` of zero. -/
theorem toC_zero : toC 0 = 0 := by
  apply Complex.ext <;> simp [toC]

/-- `toC` is additive. -/
theorem toC_add (a b : ℚ × ℚ) : toC (a + b) = toC a + toC b := by
  apply Complex.ext <;> simp [toC, Complex.add_re, Complex.add_im] <;> push_cast <;> ring

/-- `toC` maps Gaussian-rational products to complex products. -/
theorem toC_mul (a b : ℚ × ℚ) : toC (gqMul a b) = toC a * toC b := by
  apply Complex.ext <;> simp [toC, gqMul, Complex.mul_re, Complex.mul_im] <;> push_cast <;> ring

/-- `toC` maps Gaussian-rational powers to complex powers. -/
theorem toC_pow (z : ℚ × ℚ) : ∀ n : ℕ, toC (gqPow z n) = toC z ^ n := by
  intro n
  induction n with
  | zero =>
    apply Complex.ext <;> simp [toC, gqPow]
  | succ n ih =>
    rw [gqPow, toC_mul, ih, pow_succ]

/-- `toC` maps rational scalings to complex scalings. -/
theorem toC_smul (c : ℚ) (z : ℚ × ℚ) : toC (gqSmul c z) = (c : ℂ) * toC z := by
  apply Complex.ext <;>
    simp [toC, gqSmul, Complex.mul_re, Complex.mul_im, Complex.ratCast_re,
      Complex.ratCast_im] <;>
    push_cast <;> ring

/-- `toC` commutes with finite sums over ranges. -/
theorem toC_sum (f : ℕ → ℚ × ℚ) : ∀ N : ℕ,
    toC (∑ n ∈ Finset.range N, f n) = ∑ n ∈ Finset.range N, toC (f n) := by
  intro N
  induction N with
  | zero => simpa using toC_zero
  | succ N ih => rw [Finset.sum_range_succ, Finset.sum_range_succ, toC_add, ih]

/-- The complex absolute value is bounded by the rational 1-norm. -/
theorem norm_toC_le (z : ℚ × ℚ) : ‖toC z‖ ≤ ((cnorm1 z : ℚ) : ℝ) := by
  rw [Complex.norm_eq_abs]
  refine le_trans (Complex.abs_le_abs_re_add_abs_im _) ?_
  have h1 : ((cnorm1 z : ℚ) : ℝ) = |((z.1 : ℚ) : ℝ)| + |((z.2 : ℚ) : ℝ)| := by
    rw [cnorm1]
    push_cast
    rfl
  rw [h1]
  simp [toC]

/-- The norm of a complex cosine Taylor term. -/
theorem ccos_term_norm (w : ℂ) (n : ℕ) :
    ‖(-1 : ℂ) ^ n * w ^ (2 * n) / ((2 * n).factorial : ℂ)‖
      = ‖w‖ ^ (2 * n) / ((2 * n).factorial : ℝ) := by
  rw [norm_div, norm_mul, norm_pow, norm_pow, norm_neg, norm_one, one_pow, one_mul]
  congr 1
  exact Complex.norm_natCast _

/-- Cast of the Gaussian-rational Taylor sum into the complex numbers. -/
theorem ccosTaylor_cast (z : ℚ × ℚ) (N : ℕ) :
    toC (ccosTaylor z N)
      = ∑ n ∈ Finset.range N, (-1 : ℂ) ^ n * toC z ^ (2 * n) / ((2 * n).factorial : ℂ) := by
  rw [ccosTaylor, toC_sum]
  apply Finset.sum_congr rfl
  intro n _
  rw [toC_smul, toC_pow]
  push_cast
  ring

/-- The complex cosine contract: `c_cos` is within `0.75·eps` of `cos` in the
complex norm. -/
theorem ccos_spec (z : ℚ × ℚ) (eps : ℚ) (heps : 0 < eps) :
    ‖Complex.cos (toC z) - toC (ccos z eps)‖ < 3 / 4 * (eps : ℝ) := by
  have hM0 : (0 : ℚ) ≤ cnorm1 z := by
    rw [cnorm1]
    positivity
  have hMR : (0 : ℝ) ≤ ((cnorm1 z : ℚ) : ℝ) := by exact_mod_cast hM0
  set N := taylorN (cnorm1 z) eps with hN_def
  have hcond : ((cnorm1 z : ℚ) : ℝ) ^ 2 ≤ (N : ℝ) := by
    have h1 : ((cnorm1 z : ℚ) : ℝ) ^ 2 ≤ ((taylorN0 (cnorm1 z) : ℕ) : ℝ) := by
      exact_mod_cast sq_le_taylorN0 (cnorm1 z)
    have h2 : (taylorN0 (cnorm1 z) : ℕ) ≤ N := by
      rw [hN_def, taylorN]
      omega
    have h2' : ((taylorN0 (cnorm1 z) : ℕ) : ℝ) ≤ (N : ℝ) := by exact_mod_cast h2
    linarith
  have hb : ∀ j : ℕ,
      ‖(-1 : ℂ) ^ (j + N) * toC z ^ (2 * (j + N)) / ((2 * (j + N)).factorial : ℂ)‖
        ≤ ((cnorm1 z : ℚ) : ℝ) ^ (2 * N) / ((2 * N).factorial : ℝ) * (1 / 2) ^ j := by
    intro j
    rw [ccos_term_norm]
    have hpow : ‖toC z‖ ^ (2 * (j + N)) ≤ ((cnorm1 z : ℚ) : ℝ) ^ (2 * (j + N)) :=
      pow_le_pow_left (norm_nonneg _) (norm_toC_le z) _
    have hfp : (0 : ℝ) < ((2 * (j + N)).factorial : ℝ) := by
      exact_mod_cast Nat.factorial_pos _
    have hdiv : ‖toC z‖ ^ (2 * (j + N)) / ((2 * (j + N)).factorial : ℝ)
        ≤ ((cnorm1 z : ℚ) : ℝ) ^ (2 * (j + N)) / ((2 * (j + N)).factorial : ℝ) :=
      (div_le_div_right hfp).mpr hpow
    have hdecay := cosTerm_decay ((cnorm1 z : ℚ) : ℝ) hMR N hcond j
    rw [show j + N = N + j by ring]
    rw [show j + N = N + j by ring] at hdiv
    linarith
  have htb := tail_norm_bound
    (fun n => (-1 : ℂ) ^ n * toC z ^ (2 * n) / ((2 * n).factorial : ℂ))
    (Complex.cos (toC z)) (Complex.hasSum_cos (toC z)) N
    (((cnorm1 z : ℚ) : ℝ) ^ (2 * N) / ((2 * N).factorial : ℝ)) hb
  have hsmall := taylor_term_small (cnorm1 z) eps hM0 heps
  have hcast : toC (ccos z eps)
      = ∑ n ∈ Finset.range N, (-1 : ℂ) ^ n * toC z ^ (2 * n) / ((2 * n).factorial : ℂ) := by
    rw [ccos, ← hN_def, ccosTaylor_cast]
  rw [hcast]
  have heps' : (0 : ℝ) < (eps : ℝ) := by exact_mod_cast heps
  calc ‖Complex.cos (toC z)
        - ∑ n ∈ Finset.range N, (-1 : ℂ) ^ n * toC z ^ (2 * n) / ((2 * n).factorial : ℂ)‖
      ≤ 2 * (((cnorm1 z : ℚ) : ℝ) ^ (2 * N) / ((2 * N).factorial : ℝ)) := htb
    _ < (eps : ℝ) / 2 := hsmall
    _ < 3 / 4 * (eps : ℝ) := by linarith

set_option maxRecDepth 100000 in
/-- C3: for every real or complex `x` and every rational `eps > 0`,
`cos(x, eps)` returns a rational (or complex of rationals) `y` with
`|y − cos(x)| < 0.75·eps` in the appropriate norm; in particular
`cos(1, 1e-20)` is within `0.75e-20` of `cos 1` and, printed at
`display=19`, shows `.5403023058681397174`. -/
theorem cos_contract :
    (∀ x eps : ℚ, 0 < eps →
      |Real.cos (x : ℝ) - ((qcos x eps : ℚ) : ℝ)| < 3 / 4 * (eps : ℝ)) ∧
    (∀ (z : ℚ × ℚ) (eps : ℚ), 0 < eps →
      ‖Complex.cos (toC z) - toC (ccos z eps)‖ < 3 / 4 * (eps : ℝ)) ∧
    |Real.cos 1 - ((qcos 1 (1 / 10 ^ 20) : ℚ) : ℝ)| < 3 / 4 * ((1 / 10 ^ 20 : ℚ) : ℝ) ∧
    (0 < qcos 1 (1 / 10 ^ 20) ∧ qcos 1 (1 / 10 ^ 20) < 1 ∧
      displayFixed 19 (qcos 1 (1 / 10 ^ 20)) = 5403023058681397174) := by
  refine ⟨qcos_spec, ccos_spec, ?_, ?_, ?_, ?_⟩
  · have h := qcos_spec 1 (1 / 10 ^ 20) (by norm_num)
    simpa using h
  · with_unfolding_all rfl
  · with_unfolding_all rfl
  · with_unfolding_all rfl

/-- Witness for C3: at `x = 1`, `eps = 1` the hypothesis `0 < eps` holds and
the returned rational is within `0.75` of `cos 1`. -/
theorem cos_contract_witness :
    (0 : ℚ) < 1 ∧ |Real.cos ((1 : ℚ) : ℝ) - ((qcos 1 1 : ℚ) : ℝ)| < 3 / 4 * ((1 : ℚ) : ℝ) :=
  ⟨by norm_num, cos_contract.1 1 1 (by norm_num)⟩

/-! ## The magnitude layer: little-endian limbs in base `2^w`

Modelled from the spec: the magnitude layer (`zmath.c`) is not under `src/`;
`src/unnamed/part_002` (`longbits.h`) only fixes the build-time word size.
§3: a magnitude is an ordered sequence of limbs in little-endian base
`B = 2^w` (w = 16 or 32, a build parameter affecting no external semantics);
§4.A lists the operations; §9: external behavior is bit-exact and invariant
under limb width.  Division is modelled by the schoolbook bit-serial
shift-subtract method (the spec's Knuth Algorithm D computes the same
quotient/remainder pair; only the observable pair matters to the claims),
`gcd` is binary (Stein), `sqrt` is the §4.A Newton iteration, and `powmod` is
left-to-right binary exponentiation (without the Montgomery-form speedup). -/

/-- A magnitude: little-endian list of limbs. -/
def Mag := List ℕ

/-- The number a limb list denotes in base `2^w`. -/
def toVal (w : ℕ) : List ℕ → ℕ
  | [] => 0
  | l :: ls => l + 2 ^ w * toVal w ls

/-- Build the limb list of `n` (auxiliary, fuel-driven). -/
def ofValAux (w : ℕ) : ℕ → ℕ → List ℕ
  | 0, _ => []
  | fuel + 1, n => if n = 0 then [] else n % 2 ^ w :: ofValAux w fuel (n / 2 ^ w)

/-- The canonical limb list of a number (the canonical zero is `[0]`,
keeping the spec's `length ≥ 1` invariant). -/
def ofVal (w n : ℕ) : List ℕ :=
  if n = 0 then [0] else ofValAux w n n

/-- Well-formed limb lists: every limb below the base. -/
def limbsWF (w : ℕ) (a : List ℕ) : Prop := ∀ l ∈ a, l < 2 ^ w

/-- Carry-propagating addition of limb lists. -/
def addAux (w : ℕ) : List ℕ → List ℕ → ℕ → List ℕ
  | [], [], c => if c = 0 then [] else [c]
  | [], l :: ls, c => (l + c) % 2 ^ w :: addAux w [] ls ((l + c) / 2 ^ w)
  | l :: ls, [], c => (l + c) % 2 ^ w :: addAux w ls [] ((l + c) / 2 ^ w)
  | a :: as, b :: bs, c => (a + b + c) % 2 ^ w :: addAux w as bs ((a + b + c) / 2 ^ w)

/-- Magnitude addition. -/
def magAdd (w : ℕ) (a b : List ℕ) : List ℕ := addAux w a b 0

/-- Scale a limb list by a single limb, with carry propagation. -/
def scaleAux (w d : ℕ) : List ℕ → ℕ → List ℕ
  | [], c => if c = 0 then [] else [c]
  | l :: ls, c => (l * d + c) % 2 ^ w :: scaleAux w d ls ((l * d + c) / 2 ^ w)

/-- Schoolbook magnitude multiplication. -/
def magMul (w : ℕ) : List ℕ → List ℕ → List ℕ
  | [], _ => []
  | a :: as, b => magAdd w (scaleAux w a b 0) (0 :: magMul w as b)

/-- `toVal` of addition with carry, one-sided case. -/
theorem toVal_addAux_nil (w : ℕ) :
    ∀ (b : List ℕ) (c : ℕ), toVal w (addAux w [] b c) = toVal w b + c := by
  intro b
  induction b with
  | nil =>
    intro c
    by_cases hc : c = 0 <;> simp [addAux, toVal, hc]
  | cons l ls ih =>
    intro c
    rw [addAux]
    simp only [toVal]
    rw [ih ((l + c) / 2 ^ w)]
    have h := Nat.mod_add_div (l + c) (2 ^ w)
    ring_nf
    ring_nf at h
    omega

/-- `toVal` of addition with carry. -/
theorem toVal_addAux (w : ℕ) :
    ∀ (a b : List ℕ) (c : ℕ), toVal w (addAux w a b c) = toVal w a + toVal w b + c := by
  intro a
  induction a with
  | nil =>
    intro b c
    rw [toVal_addAux_nil]
    simp [toVal]
  | cons a as iha =>
    intro b
    cases b with
    | nil =>
      intro c
      rw [addAux]
      simp only [toVal]
      rw [iha [] ((a + c) / 2 ^ w)]
      simp only [toVal]
      have h := Nat.mod_add_div (a + c) (2 ^ w)
      ring_nf
      ring_nf at h
      omega
    | cons b bs =>
      intro c
      rw [addAux]
      simp only [toVal]
      rw [iha bs ((a + b + c) / 2 ^ w)]
      have h := Nat.mod_add_div (a + b + c) (2 ^ w)
      ring_nf
      ring_nf at h
      omega

/-- `toVal` of magnitude addition. -/
theorem toVal_magAdd (w : ℕ) (a b : List ℕ) :
    toVal w (magAdd w a b) = toVal w a + toVal w b := by
  rw [magAdd, toVal_addAux]
  omega

/-- `toVal` of limb scaling. -/
theorem toVal_scaleAux (w d : ℕ) :
    ∀ (ls : List ℕ) (c : ℕ), toVal w (scaleAux w d ls c) = d * toVal w ls + c := by
  intro ls
  induction ls with
  | nil =>
    intro c
    by_cases hc : c = 0 <;> simp [scaleAux, toVal, hc]
  | cons l ls ih =>
    intro c
    rw [scaleAux]
    simp only [toVal]
    rw [ih ((l * d + c) / 2 ^ w)]
    have h := Nat.mod_add_div (l * d + c) (2 ^ w)
    ring_nf
    ring_nf at h
    omega

/-- `toVal` of magnitude multiplication. -/
theorem toVal_magMul (w : ℕ) : ∀ a b : List ℕ, toVal w (magMul w a b) = toVal w a * toVal w b := by
  intro a
  induction a with
  | nil => intro b; simp [magMul, toVal]
  | cons a as ih =>
    intro b
    rw [magMul, toVal_magAdd, toVal_scaleAux]
    simp only [toVal]
    rw [ih]
    ring

/-- `toVal` of the canonical representation. -/
theorem toVal_ofVal (w n : ℕ) (hw : 1 ≤ w) : toVal w (ofVal w n) = n := by
  rw [ofVal]
  by_cases hn : n = 0
  · simp [hn, toVal]
  · rw [if_neg hn]
    have hB : 2 ≤ 2 ^ w := by
      calc 2 = 2 ^ 1 := (pow_one 2).symm
        _ ≤ 2 ^ w := Nat.pow_le_pow_right (by omega) hw
    have main : ∀ fuel m : ℕ, m ≤ fuel → toVal w (ofValAux w fuel m) = m := by
      intro fuel
      induction fuel with
      | zero =>
        intro m hm
        interval_cases m
        simp [ofValAux, toVal]
      | succ fuel ih =>
        intro m hm
        rw [ofValAux]
        by_cases hm0 : m = 0
        · simp [hm0, toVal]
        · rw [if_neg hm0]
          simp only [toVal]
          rw [ih (m / 2 ^ w) (by
            have hdiv := Nat.div_lt_self (Nat.pos_of_ne_zero hm0) (by omega : 1 < 2 ^ w)
            omega)]
          have h := Nat.mod_add_div m (2 ^ w)
          ring_nf
          ring_nf at h
          omega
    exact main n n le_rfl

/-- The canonical representation is well-formed. -/
theorem limbsWF_ofVal (w n : ℕ) (hw : 1 ≤ w) : limbsWF w (ofVal w n) := by
  rw [ofVal]
  have hB : 1 < 2 ^ w := by
    calc 1 < 2 ^ 1 := by norm_num
      _ ≤ 2 ^ w := Nat.pow_le_pow_right (by omega) hw
  by_cases hn : n = 0
  · rw [if_pos hn]
    intro l hl
    simp at hl
    omega
  · rw [if_neg hn]
    have main : ∀ fuel m : ℕ, limbsWF w (ofValAux w fuel m) := by
      intro fuel
      induction fuel with
      | zero => intro m l hl; simp [ofValAux] at hl
      | succ fuel ih =>
        intro m l hl
        rw [ofValAux] at hl
        by_cases hm0 : m = 0
        · simp [hm0] at hl
        · rw [if_neg hm0] at hl
          rcases List.mem_cons.mp hl with h | h
          · subst h
            exact Nat.mod_lt _ (by omega)
          · exact ih _ _ h
    exact main n n

/-- Limb-wise subtraction with borrow, over zipped limb pairs. -/
def subAux (w : ℕ) : List (ℕ × ℕ) → ℕ → List ℕ × ℕ
  | [], br => ([], br)
  | p :: rest, br =>
      if p.2 + br ≤ p.1 then
        let r := subAux w rest 0
        ((p.1 - (p.2 + br)) :: r.1, r.2)
      else
        let r := subAux w rest 1
        ((p.1 + 2 ^ w - (p.2 + br)) :: r.1, r.2)

/-- Pad a limb list with high zero limbs to length `k`. -/
def padTo (k : ℕ) (a : List ℕ) : List ℕ := a ++ List.replicate (k - a.length) 0

/-- Magnitude subtraction: the limb-wise difference and the final borrow
(the borrow doubles as the comparison result). -/
def magSub (w : ℕ) (a b : List ℕ) : List ℕ × ℕ :=
  subAux w ((padTo (max a.length b.length) a).zip (padTo (max a.length b.length) b)) 0

/-- Magnitude comparison, from the subtraction borrow. -/
def magLt (w : ℕ) (a b : List ℕ) : Bool := (magSub w a b).2 == 1

/-- `toVal` of an append. -/
theorem toVal_append (w : ℕ) :
    ∀ a b : List ℕ, toVal w (a ++ b) = toVal w a + 2 ^ (w * a.length) * toVal w b := by
  intro a
  induction a with
  | nil => intro b; simp [toVal]
  | cons l ls ih =>
    intro b
    rw [List.cons_append]
    simp only [toVal]
    rw [ih b]
    simp only [List.length_cons]
    have h : 2 ^ (w * (ls.length + 1)) = 2 ^ w * 2 ^ (w * ls.length) := by
      rw [← pow_add]
      congr 1
      ring
    rw [h]
    ring

/-- `toVal` of a zero run. -/
theorem toVal_replicate_zero (w : ℕ) : ∀ k : ℕ, toVal w (List.replicate k 0) = 0 := by
  intro k
  induction k with
  | zero => simp [toVal]
  | succ k ih => simp [List.replicate_succ, toVal, ih]

/-- Padding does not change the value. -/
theorem toVal_padTo (w k : ℕ) (a : List ℕ) : toVal w (padTo k a) = toVal w a := by
  rw [padTo, toVal_append, toVal_replicate_zero]
  ring

/-- Padding reaches the requested length. -/
theorem padTo_length (k : ℕ) (a : List ℕ) (h : a.length ≤ k) : (padTo k a).length = k := by
  rw [padTo, List.length_append, List.length_replicate]
  omega

/-- Padding preserves well-formedness (for positive width). -/
theorem limbsWF_padTo (w k : ℕ) (hw : 1 ≤ w) (a : List ℕ) (ha : limbsWF w a) :
    limbsWF w (padTo k a) := by
  intro l hl
  rw [padTo] at hl
  rcases List.mem_append.mp hl with h | h
  · exact ha l h
  · have := List.eq_of_mem_replicate h
    subst this
    have : (2 : ℕ) ≤ 2 ^ w := by
      calc (2 : ℕ) = 2 ^ 1 := (pow_one 2).symm
        _ ≤ 2 ^ w := Nat.pow_le_pow_right (by omega) hw
    omega

/-- A well-formed limb list of length `n` denotes a value below `2^(w·n)`. -/
theorem toVal_lt (w : ℕ) :
    ∀ a : List ℕ, limbsWF w a → toVal w a < 2 ^ (w * a.length) := by
  intro a
  induction a with
  | nil => intro _; simp [toVal]
  | cons l ls ih =>
    intro h
    have hl : l < 2 ^ w := h l (List.mem_cons_self l ls)
    have hls : limbsWF w ls := fun x hx => h x (List.mem_cons_of_mem l hx)
    have h1 := ih hls
    simp only [toVal, List.length_cons]
    have h2 : 2 ^ (w * (ls.length + 1)) = 2 ^ w * 2 ^ (w * ls.length) := by
      rw [← pow_add]
      congr 1
      ring
    rw [h2]
    have h3 : toVal w ls + 1 ≤ 2 ^ (w * ls.length) := h1
    calc l + 2 ^ w * toVal w ls < 2 ^ w + 2 ^ w * toVal w ls := by omega
      _ = 2 ^ w * (toVal w ls + 1) := by ring
      _ ≤ 2 ^ w * 2 ^ (w * ls.length) := Nat.mul_le_mul_left _ h3

/-- The subtraction invariant: borrow flag, length, well-formedness, and the
exact value identity over `ℤ`. -/
theorem subAux_spec (w : ℕ) (hw : 1 ≤ w) :
    ∀ (L : List (ℕ × ℕ)) (br : ℕ), br ≤ 1 →
      (∀ p ∈ L, p.1 < 2 ^ w ∧ p.2 < 2 ^ w) →
      (subAux w L br).2 ≤ 1 ∧ (subAux w L br).1.length = L.length ∧
      limbsWF w (subAux w L br).1 ∧
      ((toVal w (subAux w L br).1 : ℤ)
        = (toVal w (L.map Prod.fst) : ℤ) - (toVal w (L.map Prod.snd) : ℤ) - br
          + (subAux w L br).2 * 2 ^ (w * L.length)) := by
  intro L
  induction L with
  | nil =>
    intro br hbr _
    simp only [subAux]
    refine ⟨hbr, rfl, fun l hl => absurd hl (List.not_mem_nil l), ?_⟩
    simp [toVal]
  | cons p rest ih =>
    intro br hbr hwf
    have hp := hwf p (List.mem_cons_self p rest)
    have hrest : ∀ q ∈ rest, q.1 < 2 ^ w ∧ q.2 < 2 ^ w :=
      fun q hq => hwf q (List.mem_cons_of_mem p hq)
    have hBpos : (1 : ℕ) ≤ 2 ^ w := Nat.one_le_two_pow
    have hpow : (2 : ℤ) ^ (w * (rest.length + 1)) = 2 ^ w * 2 ^ (w * rest.length) := by
      rw [← pow_add]
      congr 1
      ring
    rw [subAux]
    by_cases hc : p.2 + br ≤ p.1
    · rw [if_pos hc]
      obtain ⟨h1, h2, h3, h4⟩ := ih 0 (by omega) hrest
      refine ⟨h1, by simpa using h2, ?_, ?_⟩
      · intro l hl
        rcases List.mem_cons.mp hl with h | h
        · subst h
          omega
        · exact h3 l h
      · simp only [toVal, List.map_cons, List.length_cons]
        push_cast [Nat.cast_sub hc]
        rw [hpow]
        have h4w := congrArg (fun t : ℤ => t * 2 ^ w) h4
        simp only at h4w
        ring_nf
        ring_nf at h4w
        linarith [h4w]
    · rw [if_neg hc]
      obtain ⟨h1, h2, h3, h4⟩ := ih 1 (by omega) hrest
      have hle : p.2 + br ≤ p.1 + 2 ^ w := by omega
      refine ⟨h1, by simpa using h2, ?_, ?_⟩
      · intro l hl
        rcases List.mem_cons.mp hl with h | h
        · subst h
          omega
        · exact h3 l h
      · simp only [toVal, List.map_cons, List.length_cons]
        push_cast [Nat.cast_sub hle]
        rw [hpow]
        have h4w := congrArg (fun t : ℤ => t * 2 ^ w) h4
        simp only at h4w
        ring_nf
        ring_nf at h4w
        linarith [h4w]

/-- Specification of magnitude subtraction: the borrow decides the
comparison, and when there is no borrow the difference is exact. -/
theorem magSub_spec (w : ℕ) (hw : 1 ≤ w) (a b : List ℕ)
    (ha : limbsWF w a) (hb : limbsWF w b) :
    ((magSub w a b).2 = if toVal w a < toVal w b then 1 else 0) ∧
    limbsWF w (magSub w a b).1 ∧
    (toVal w b ≤ toVal w a → toVal w (magSub w a b).1 = toVal w a - toVal w b) := by
  set n := max a.length b.length with hn_def
  have hla : a.length ≤ n := le_max_left _ _
  have hlb : b.length ≤ n := le_max_right _ _
  set pa := padTo n a with hpa_def
  set pb := padTo n b with hpb_def
  have hpaw : limbsWF w pa := limbsWF_padTo w n hw a ha
  have hpbw : limbsWF w pb := limbsWF_padTo w n hw b hb
  have hlen_pa : pa.length = n := padTo_length n a hla
  have hlen_pb : pb.length = n := padTo_length n b hlb
  have hlen_eq : pa.length = pb.length := by rw [hlen_pa, hlen_pb]
  have hzip_len : (pa.zip pb).length = n := by
    rw [List.length_zip, hlen_pa, hlen_pb]
    omega
  have hfst : (pa.zip pb).map Prod.fst = pa := List.map_fst_zip pa pb (le_of_eq hlen_eq)
  have hsnd : (pa.zip pb).map Prod.snd = pb := List.map_snd_zip pa pb (ge_of_eq hlen_eq)
  have hwfzip : ∀ p ∈ pa.zip pb, p.1 < 2 ^ w ∧ p.2 < 2 ^ w := by
    intro p hp
    obtain ⟨h1, h2⟩ := List.of_mem_zip hp
    exact ⟨hpaw _ h1, hpbw _ h2⟩
  obtain ⟨h1, h2, h3, h4⟩ := subAux_spec w hw (pa.zip pb) 0 (by omega) hwfzip
  rw [hfst, hsnd, hzip_len] at h4
  have hva : toVal w pa = toVal w a := toVal_padTo w n a
  have hvb : toVal w pb = toVal w b := toVal_padTo w n b
  rw [hva, hvb] at h4
  have hlen_res : (subAux w (pa.zip pb) 0).1.length = n := by rw [h2, hzip_len]
  have hres_lt : toVal w (subAux w (pa.zip pb) 0).1 < 2 ^ (w * n) := by
    have := toVal_lt w _ h3
    rwa [hlen_res] at this
  have hb_lt : toVal w b < 2 ^ (w * n) := by
    have := toVal_lt w b hb
    have hmono : (2 : ℕ) ^ (w * b.length) ≤ 2 ^ (w * n) :=
      Nat.pow_le_pow_right (by omega) (Nat.mul_le_mul_left w hlb)
    omega
  have hmag : magSub w a b = subAux w (pa.zip pb) 0 := rfl
  rw [hmag]
  have hbr : (subAux w (pa.zip pb) 0).2 = if toVal w a < toVal w b then 1 else 0 := by
    by_cases hab : toVal w a < toVal w b
    · rw [if_pos hab]
      rcases Nat.lt_or_ge (subAux w (pa.zip pb) 0).2 1 with h | h
      · exfalso
        have hz : (subAux w (pa.zip pb) 0).2 = 0 := by omega
        rw [hz] at h4
        have : (toVal w (subAux w (pa.zip pb) 0).1 : ℤ) < 0 := by
          rw [h4]
          push_cast
          have : (toVal w a : ℤ) < toVal w b := by exact_mod_cast hab
          linarith
        have h0 : (0 : ℤ) ≤ (toVal w (subAux w (pa.zip pb) 0).1 : ℤ) := Int.natCast_nonneg _
        linarith
      · omega
    · rw [if_neg hab]
      rcases Nat.eq_zero_or_pos (subAux w (pa.zip pb) 0).2 with h | h
      · exact h
      · exfalso
        have hone : (subAux w (pa.zip pb) 0).2 = 1 := by omega
        rw [hone] at h4
        have hge : (toVal w b : ℤ) ≤ toVal w a := by
          exact_mod_cast Nat.ge_of_not_lt hab
        have hlt' : (toVal w (subAux w (pa.zip pb) 0).1 : ℤ) < 2 ^ (w * n) := by
          exact_mod_cast hres_lt
        rw [h4] at hlt'
        push_cast at hlt'
        linarith
  refine ⟨hbr, h3, ?_⟩
  intro hle
  have hnb : ¬ toVal w a < toVal w b := by omega
  rw [if_neg hnb] at hbr
  rw [hbr] at h4
  have : (toVal w (subAux w (pa.zip pb) 0).1 : ℤ) = (toVal w a : ℤ) - toVal w b := by
    rw [h4]
    push_cast
    ring
  omega

/-- Carry-propagating addition keeps limbs in range (carry at most 1). -/
theorem limbsWF_addAux (w : ℕ) (hw : 1 ≤ w) :
    ∀ (a b : List ℕ) (c : ℕ), limbsWF w a → limbsWF w b → c ≤ 1 →
      limbsWF w (addAux w a b c) := by
  have hB : 2 ≤ 2 ^ w := by
    calc (2 : ℕ) = 2 ^ 1 := (pow_one 2).symm
      _ ≤ 2 ^ w := Nat.pow_le_pow_right (by omega) hw
  intro a
  induction a with
  | nil =>
    intro b
    induction b with
    | nil =>
      intro c _ _ hc
      by_cases h0 : c = 0
      · simp [addAux, h0, limbsWF]
      · rw [addAux, if_neg h0]
        intro l hl
        simp at hl
        omega
    | cons x xs ih =>
      intro c _ hb hc
      rw [addAux]
      intro l hl
      have hx : x < 2 ^ w := hb x (List.mem_cons_self x xs)
      have hxs : limbsWF w xs := fun y hy => hb y (List.mem_cons_of_mem x hy)
      rcases List.mem_cons.mp hl with h | h
      · subst h
        exact Nat.mod_lt _ (by omega)
      · refine ih ((x + c) / 2 ^ w) (fun _ h => absurd h (List.not_mem_nil _)) hxs ?_ l h
        have hlt : (x + c) / 2 ^ w < 2 := Nat.div_lt_of_lt_mul (by omega)
        omega
  | cons x xs ih =>
    intro b
    cases b with
    | nil =>
      intro c ha _ hc
      rw [addAux]
      intro l hl
      have hx : x < 2 ^ w := ha x (List.mem_cons_self x xs)
      have hxs : limbsWF w xs := fun y hy => ha y (List.mem_cons_of_mem x hy)
      rcases List.mem_cons.mp hl with h | h
      · subst h
        exact Nat.mod_lt _ (by omega)
      · refine ih [] ((x + c) / 2 ^ w) hxs (fun _ h => absurd h (List.not_mem_nil _)) ?_ l h
        have hlt : (x + c) / 2 ^ w < 2 := Nat.div_lt_of_lt_mul (by omega)
        omega
    | cons y ys =>
      intro c ha hb hc
      rw [addAux]
      intro l hl
      have hx : x < 2 ^ w := ha x (List.mem_cons_self x xs)
      have hy : y < 2 ^ w := hb y (List.mem_cons_self y ys)
      have hxs : limbsWF w xs := fun z hz => ha z (List.mem_cons_of_mem x hz)
      have hys : limbsWF w ys := fun z hz => hb z (List.mem_cons_of_mem y hz)
      rcases List.mem_cons.mp hl with h | h
      · subst h
        exact Nat.mod_lt _ (by omega)
      · refine ih ys ((x + y + c) / 2 ^ w) hxs hys ?_ l h
        have hlt : (x + y + c) / 2 ^ w < 2 := Nat.div_lt_of_lt_mul (by omega)
        omega

/-- Magnitude addition keeps limbs in range. -/
theorem limbsWF_magAdd (w : ℕ) (hw : 1 ≤ w) (a b : List ℕ)
    (ha : limbsWF w a) (hb : limbsWF w b) : limbsWF w (magAdd w a b) :=
  limbsWF_addAux w hw a b 0 ha hb (by omega)

/-- Limb scaling keeps limbs in range. -/
theorem limbsWF_scaleAux (w : ℕ) (hw : 1 ≤ w) (d : ℕ) (hd : d < 2 ^ w) :
    ∀ (ls : List ℕ) (c : ℕ), limbsWF w ls → c < 2 ^ w → limbsWF w (scaleAux w d ls c) := by
  intro ls
  induction ls with
  | nil =>
    intro c _ hc
    by_cases h0 : c = 0
    · simp [scaleAux, h0, limbsWF]
    · rw [scaleAux, if_neg h0]
      intro l hl
      simp at hl
      omega
  | cons x xs ih =>
    intro c hxl hc
    rw [scaleAux]
    intro l hl
    have hx : x < 2 ^ w := hxl x (List.mem_cons_self x xs)
    have hxs : limbsWF w xs := fun y hy => hxl y (List.mem_cons_of_mem x hy)
    have hBpos : 0 < 2 ^ w := by positivity
    rcases List.mem_cons.mp hl with h | h
    · subst h
      exact Nat.mod_lt _ hBpos
    · refine ih ((x * d + c) / 2 ^ w) hxs ?_ l h
      have h1 : x * d ≤ (2 ^ w - 1) * (2 ^ w - 1) :=
        Nat.mul_le_mul (by omega) (by omega)
      have h2 : x * d + c < 2 ^ w * 2 ^ w := by nlinarith [hBpos]
      exact Nat.div_lt_of_lt_mul h2

/-- Magnitude multiplication keeps limbs in range. -/
theorem limbsWF_magMul (w : ℕ) (hw : 1 ≤ w) :
    ∀ a b : List ℕ, limbsWF w a → limbsWF w b → limbsWF w (magMul w a b) := by
  intro a
  induction a with
  | nil => intro b _ _; simp [magMul, limbsWF]
  | cons x xs ih =>
    intro b ha hb
    have hx : x < 2 ^ w := ha x (List.mem_cons_self x xs)
    have hxs : limbsWF w xs := fun y hy => ha y (List.mem_cons_of_mem x hy)
    rw [magMul]
    apply limbsWF_magAdd w hw
    · exact limbsWF_scaleAux w hw x hx b 0 hb (by positivity)
    · intro l hl
      rcases List.mem_cons.mp hl with h | h
      · subst h
        positivity
      · exact ih b hxs hb l h

/-- Doubling a magnitude. -/
def magDouble (w : ℕ) (a : List ℕ) : List ℕ := magAdd w a a

/-- Iterated doubling (the intra-limb part of a left shift). -/
def iterDouble (w : ℕ) : ℕ → List ℕ → List ℕ
  | 0, a => a
  | j + 1, a => magDouble w (iterDouble w j a)

/-- Left shift by `k` bits: limb moves plus intra-limb doublings. -/
def magShl (w k : ℕ) (a : List ℕ) : List ℕ :=
  iterDouble w (k % w) (List.replicate (k / w) 0 ++ a)

/-- `toVal` of doubling. -/
theorem toVal_magDouble (w : ℕ) (a : List ℕ) : toVal w (magDouble w a) = 2 * toVal w a := by
  rw [magDouble, toVal_magAdd]
  ring

/-- `toVal` of iterated doubling. -/
theorem toVal_iterDouble (w : ℕ) : ∀ (j : ℕ) (a : List ℕ),
    toVal w (iterDouble w j a) = 2 ^ j * toVal w a := by
  intro j
  induction j with
  | zero => intro a; simp [iterDouble]
  | succ j ih =>
    intro a
    rw [iterDouble, toVal_magDouble, ih, pow_succ]
    ring

/-- `toVal` of the left shift. -/
theorem toVal_magShl (w : ℕ) (hw : 1 ≤ w) (k : ℕ) (a : List ℕ) :
    toVal w (magShl w k a) = 2 ^ k * toVal w a := by
  rw [magShl, toVal_iterDouble, toVal_append, toVal_replicate_zero, List.length_replicate]
  have h : 2 ^ (k % w) * (2 ^ (w * (k / w)) * toVal w a) = 2 ^ (k % w + w * (k / w)) * toVal w a := by
    rw [pow_add]
    ring
  rw [show (0 : ℕ) + 2 ^ (w * (k / w)) * toVal w a = 2 ^ (w * (k / w)) * toVal w a by omega, h]
  congr 2
  have := Nat.div_add_mod k w
  omega

/-- Well-formedness of doubling and shifts. -/
theorem limbsWF_magDouble (w : ℕ) (hw : 1 ≤ w) (a : List ℕ) (ha : limbsWF w a) :
    limbsWF w (magDouble w a) :=
  limbsWF_magAdd w hw a a ha ha

theorem limbsWF_iterDouble (w : ℕ) (hw : 1 ≤ w) :
    ∀ (j : ℕ) (a : List ℕ), limbsWF w a → limbsWF w (iterDouble w j a) := by
  intro j
  induction j with
  | zero => intro a ha; exact ha
  | succ j ih => intro a ha; exact limbsWF_magDouble w hw _ (ih a ha)

theorem limbsWF_magShl (w : ℕ) (hw : 1 ≤ w) (k : ℕ) (a : List ℕ) (ha : limbsWF w a) :
    limbsWF w (magShl w k a) := by
  apply limbsWF_iterDouble w hw
  intro l hl
  rcases List.mem_append.mp hl with h | h
  · have := List.eq_of_mem_replicate h
    subst this
    positivity
  · exact ha l h

/-- The low `width` bits of a limb, least significant first. -/
def limbBitsAux (l : ℕ) : ℕ → List Bool
  | 0 => []
  | width + 1 => (decide (l % 2 = 1)) :: limbBitsAux (l / 2) width

/-- Value of a most-significant-first bit string, given an accumulator. -/
def msbVal : List Bool → ℕ → ℕ
  | [], acc => acc
  | b :: rest, acc => msbVal rest (2 * acc + (if b then 1 else 0))

/-- Bits of a magnitude, most significant first. -/
def magBits (w : ℕ) : List ℕ → List Bool
  | [] => []
  | l :: ls => magBits w ls ++ (limbBitsAux l w).reverse

theorem msbVal_append : ∀ (xs ys : List Bool) (acc : ℕ),
    msbVal (xs ++ ys) acc = msbVal ys (msbVal xs acc) := by
  intro xs
  induction xs with
  | nil => intro ys acc; rfl
  | cons b rest ih => intro ys acc; simp [msbVal, ih]

theorem msbVal_limbBits : ∀ (width l acc : ℕ),
    msbVal (limbBitsAux l width).reverse acc = acc * 2 ^ width + l % 2 ^ width := by
  intro width
  induction width with
  | zero => intro l acc; simp [limbBitsAux, msbVal, Nat.mod_one]
  | succ width ih =>
    intro l acc
    rw [limbBitsAux, List.reverse_cons, msbVal_append, ih (l / 2) acc, msbVal]
    have hmod : l % 2 ^ (width + 1) = 2 * (l / 2 % 2 ^ width) + l % 2 := by
      have h : l % (2 * 2 ^ width) = l % 2 + 2 * (l / 2 % 2 ^ width) := Nat.mod_mul
      rw [show (2 : ℕ) * 2 ^ width = 2 ^ (width + 1) by rw [pow_succ]; ring] at h
      omega
    by_cases hpar : l % 2 = 1
    · rw [if_pos (by simpa using hpar)]
      rw [msbVal, pow_succ]
      ring_nf
      ring_nf at hmod
      omega
    · rw [if_neg (by simpa using hpar)]
      rw [msbVal, pow_succ]
      ring_nf
      ring_nf at hmod
      omega

/-- The MSB-first bit string of a well-formed magnitude reads back to its value. -/
theorem msbVal_magBits (w : ℕ) : ∀ (a : List ℕ) (acc : ℕ), limbsWF w a →
    msbVal (magBits w a) acc = acc * 2 ^ (w * a.length) + toVal w a := by
  intro a
  induction a with
  | nil => intro acc _; simp [magBits, msbVal, toVal]
  | cons l ls ih =>
    intro acc ha
    have hl : l < 2 ^ w := ha l (List.mem_cons_self l ls)
    have hls : limbsWF w ls := fun y hy => ha y (List.mem_cons_of_mem l hy)
    rw [magBits, msbVal_append, msbVal_limbBits, ih acc hls, toVal,
      Nat.mod_eq_of_lt hl, List.length_cons,
      show w * (ls.length + 1) = w * ls.length + w by ring, pow_add]
    ring

/-- Bit-serial restoring division: consume dividend bits MSB-first,
shifting the remainder left and subtracting the divisor when it fits. -/
def divmodBits (w : ℕ) (b : List ℕ) : List Bool → List ℕ × List ℕ → List ℕ × List ℕ
  | [], qr => qr
  | bit :: rest, (q, r) =>
      if (magSub w (if bit then magAdd w (magAdd w r r) [1] else magAdd w r r) b).2 = 0 then
        divmodBits w b rest
          (magAdd w (magAdd w q q) [1],
           (magSub w (if bit then magAdd w (magAdd w r r) [1] else magAdd w r r) b).1)
      else
        divmodBits w b rest
          (magAdd w q q, if bit then magAdd w (magAdd w r r) [1] else magAdd w r r)

/-- All-limbs-zero test. -/
def magIsZero (a : List ℕ) : Bool := a.all (· == 0)

/-- Division with remainder on magnitudes; division by zero returns (0, a). -/
def magDivMod (w : ℕ) (a b : List ℕ) : List ℕ × List ℕ :=
  if magIsZero b then ([], a) else divmodBits w b (magBits w a) ([], [])

theorem magIsZero_iff (w : ℕ) : ∀ a : List ℕ, (magIsZero a = true) ↔ toVal w a = 0 := by
  intro a
  induction a with
  | nil => simp [magIsZero, toVal]
  | cons l ls ih =>
    have hp : 0 < 2 ^ w := by positivity
    rw [show magIsZero (l :: ls) = ((l == 0) && magIsZero ls) from rfl, toVal]
    simp only [Bool.and_eq_true, beq_iff_eq, ih]
    constructor
    · rintro ⟨h1, h2⟩; simp [h1, h2]
    · intro h
      have h1 : l = 0 := by omega
      have h2 : 2 ^ w * toVal w ls = 0 := by omega
      rcases Nat.mul_eq_zero.mp h2 with h3 | h3
      · omega
      · exact ⟨h1, h3⟩

theorem limbsWF_one (w : ℕ) (hw : 1 ≤ w) : limbsWF w [1] := by
  intro l hl
  simp at hl
  subst hl
  have h2 : (2 : ℕ) ^ 1 ≤ 2 ^ w := Nat.pow_le_pow_right (by omega) hw
  simp at h2
  omega

theorem toVal_one (w : ℕ) : toVal w [1] = 1 := by simp [toVal]

/-- Invariant of the restoring division loop. -/
theorem divmodBits_spec (w : ℕ) (hw : 1 ≤ w) (b : List ℕ) (hbw : limbsWF w b)
    (hb0 : 0 < toVal w b) :
    ∀ (bits : List Bool) (q r : List ℕ), limbsWF w q → limbsWF w r →
      toVal w r < toVal w b →
      limbsWF w (divmodBits w b bits (q, r)).1 ∧
      limbsWF w (divmodBits w b bits (q, r)).2 ∧
      toVal w (divmodBits w b bits (q, r)).1 * toVal w b
          + toVal w (divmodBits w b bits (q, r)).2
        = msbVal bits (toVal w q * toVal w b + toVal w r) ∧
      toVal w (divmodBits w b bits (q, r)).2 < toVal w b := by
  intro bits
  induction bits with
  | nil =>
    intro q r hq hr hrb
    exact ⟨hq, hr, rfl, hrb⟩
  | cons bit rest ih =>
    intro q r hq hr hrb
    rw [divmodBits]
    have h1wf : limbsWF w [1] := limbsWF_one w hw
    have hr2 : limbsWF w (magAdd w r r) := limbsWF_magAdd w hw r r hr hr
    have hr'wf : limbsWF w (if bit then magAdd w (magAdd w r r) [1] else magAdd w r r) := by
      cases bit
      · simpa using hr2
      · simpa using limbsWF_magAdd w hw _ _ hr2 h1wf
    have hr'val : toVal w (if bit then magAdd w (magAdd w r r) [1] else magAdd w r r)
        = 2 * toVal w r + (if bit then 1 else 0) := by
      cases bit
      · simp [toVal_magAdd]; ring
      · simp [toVal_magAdd, toVal_one]; ring
    set r' := if bit then magAdd w (magAdd w r r) [1] else magAdd w r r with hr'eq
    have hv : (if bit then 1 else 0 : ℕ) ≤ 1 := by cases bit <;> simp
    have hsub := magSub_spec w hw r' b hr'wf hbw
    by_cases hcase : (magSub w r' b).2 = 0
    · rw [if_pos hcase]
      have hge : toVal w b ≤ toVal w r' := by
        rcases hsub with ⟨h1, _, _⟩
        by_contra hlt
        push_neg at hlt
        rw [if_pos hlt] at h1
        omega
      have hswf : limbsWF w (magSub w r' b).1 := hsub.2.1
      have hsval : toVal w (magSub w r' b).1 = toVal w r' - toVal w b := hsub.2.2 hge
      rw [hr'val] at hge hsval
      have hq'wf : limbsWF w (magAdd w (magAdd w q q) [1]) :=
        limbsWF_magAdd w hw _ _ (limbsWF_magAdd w hw q q hq hq) h1wf
      have hq'val : toVal w (magAdd w (magAdd w q q) [1]) = 2 * toVal w q + 1 := by
        rw [toVal_magAdd, toVal_magAdd, toVal_one]
        ring
      have hrlt : toVal w (magSub w r' b).1 < toVal w b := by
        rw [hsval]
        omega
      obtain ⟨ihw1, ihw2, ihval, ihlt⟩ := ih _ _ hq'wf hswf hrlt
      refine ⟨ihw1, ihw2, ?_, ihlt⟩
      rw [ihval, msbVal]
      congr 1
      rw [hq'val, hsval]
      have hd : (2 * toVal w q + 1) * toVal w b
          = 2 * (toVal w q * toVal w b) + toVal w b := by ring
      omega
    · rw [if_neg hcase]
      have hlt' : toVal w r' < toVal w b := by
        rcases hsub with ⟨h1, _, _⟩
        by_cases hlt : toVal w r' < toVal w b
        · exact hlt
        · rw [if_neg hlt] at h1
          omega
      have hq2wf : limbsWF w (magAdd w q q) := limbsWF_magAdd w hw q q hq hq
      obtain ⟨ihw1, ihw2, ihval, ihlt⟩ := ih _ _ hq2wf hr'wf hlt'
      refine ⟨ihw1, ihw2, ?_, ihlt⟩
      rw [ihval, msbVal]
      congr 1
      rw [toVal_magAdd, hr'val]
      have hd : (toVal w q + toVal w q) * toVal w b
          = 2 * (toVal w q * toVal w b) := by ring
      omega

/-- Magnitude division agrees with ℕ division and remainder (with x/0 = 0, x%0 = x). -/
theorem magDivMod_spec (w : ℕ) (hw : 1 ≤ w) (a b : List ℕ)
    (ha : limbsWF w a) (hb : limbsWF w b) :
    toVal w (magDivMod w a b).1 = toVal w a / toVal w b ∧
    toVal w (magDivMod w a b).2 = toVal w a % toVal w b ∧
    limbsWF w (magDivMod w a b).1 ∧ limbsWF w (magDivMod w a b).2 := by
  rw [magDivMod]
  by_cases h0 : magIsZero b
  · rw [if_pos h0]
    have hb0 : toVal w b = 0 := (magIsZero_iff w b).mp h0
    rw [hb0]
    refine ⟨by simp [toVal], by simp [Nat.mod_zero], ?_, ha⟩
    intro l hl
    exact absurd hl (List.not_mem_nil l)
  · rw [if_neg h0]
    have hb0 : 0 < toVal w b := by
      have := (magIsZero_iff w b).not
      rcases Nat.eq_zero_or_pos (toVal w b) with h | h
      · exact absurd ((magIsZero_iff w b).mpr h) h0
      · exact h
    have hnilwf : limbsWF w ([] : List ℕ) := fun l hl => absurd hl (List.not_mem_nil l)
    obtain ⟨hw1, hw2, hval, hlt⟩ :=
      divmodBits_spec w hw b hb hb0 (magBits w a) [] [] hnilwf hnilwf
        (by simpa [toVal] using hb0)
    rw [msbVal_magBits w a _ ha] at hval
    simp only [toVal] at hval
    have hA : toVal w (divmodBits w b (magBits w a) ([], [])).1 * toVal w b
        + toVal w (divmodBits w b (magBits w a) ([], [])).2 = toVal w a := by
      omega
    refine ⟨?_, ?_, hw1, hw2⟩
    · rw [← hA, mul_comm, Nat.mul_add_div hb0, Nat.div_eq_of_lt hlt, add_zero]
    · rw [← hA, mul_comm, Nat.mul_add_mod, Nat.mod_eq_of_lt hlt]

/-- Right shift by `k` bits, as division by the shifted unit. -/
def magShr (w k : ℕ) (a : List ℕ) : List ℕ := (magDivMod w a (magShl w k [1])).1

theorem magShr_spec (w : ℕ) (hw : 1 ≤ w) (k : ℕ) (a : List ℕ) (ha : limbsWF w a) :
    toVal w (magShr w k a) = toVal w a / 2 ^ k ∧ limbsWF w (magShr w k a) := by
  have hswf : limbsWF w (magShl w k [1]) := limbsWF_magShl w hw k [1] (limbsWF_one w hw)
  have hsval : toVal w (magShl w k [1]) = 2 ^ k := by
    rw [toVal_magShl w hw, toVal_one, mul_one]
  obtain ⟨h1, _, h3, _⟩ := magDivMod_spec w hw a (magShl w k [1]) ha hswf
  rw [magShr]
  rw [hsval] at h1
  exact ⟨h1, h3⟩

/-- Bit `i` of a limb-decomposed value: low bits come from the low limb. -/
theorem testBit_limb_decomp (w l R i : ℕ) (hw : 1 ≤ w) (hl : l < 2 ^ w) :
    Nat.testBit (l + 2 ^ w * R) i
      = if i < w then Nat.testBit l i else Nat.testBit R (i - w) := by
  by_cases hi : i < w
  · rw [if_pos hi]
    rw [Nat.testBit_to_div_mod, Nat.testBit_to_div_mod]
    have hsplit : l + 2 ^ w * R = l + 2 ^ i * (2 * (2 ^ (w - i - 1) * R)) := by
      rw [← mul_assoc, ← mul_assoc, ← pow_succ, ← pow_add,
        show i + 1 + (w - i - 1) = w by omega]
    rw [hsplit, Nat.add_mul_div_left _ _ (by positivity), Nat.add_mul_mod_self_left]
  · rw [if_neg hi]
    rw [Nat.testBit_to_div_mod, Nat.testBit_to_div_mod]
    have hpow : (2 : ℕ) ^ i = 2 ^ w * 2 ^ (i - w) := by
      rw [← pow_add]
      congr 1
      omega
    rw [hpow, ← Nat.div_div_eq_div_mul, Nat.add_mul_div_left _ _ (by positivity),
      Nat.div_eq_of_lt hl, Nat.zero_add]

/-- Bit test on a magnitude: limb `i / w`, bit `i % w`. -/
def magTestBit (w : ℕ) (a : List ℕ) (i : ℕ) : Bool :=
  Nat.testBit (a.getD (i / w) 0) (i % w)

theorem magTestBit_spec (w : ℕ) (hw : 1 ≤ w) :
    ∀ (a : List ℕ), limbsWF w a → ∀ i, magTestBit w a i = Nat.testBit (toVal w a) i := by
  intro a
  induction a with
  | nil =>
    intro _ i
    simp [magTestBit, toVal, Nat.zero_testBit]
  | cons l ls ih =>
    intro ha i
    have hl : l < 2 ^ w := ha l (List.mem_cons_self l ls)
    have hls : limbsWF w ls := fun y hy => ha y (List.mem_cons_of_mem l hy)
    rw [toVal, testBit_limb_decomp w l _ i hw hl]
    by_cases hi : i < w
    · rw [if_pos hi, magTestBit, Nat.div_eq_of_lt hi, Nat.mod_eq_of_lt hi,
        List.getD_cons_zero]
    · rw [if_neg hi]
      obtain ⟨j, rfl⟩ : ∃ j, i = j + w := ⟨i - w, by omega⟩
      rw [magTestBit, Nat.add_div_right _ (by omega), Nat.add_mod_right,
        List.getD_cons_succ, Nat.add_sub_cancel, ← ih hls j, magTestBit]

/-- Limb-wise bitwise combination of two equal-length padded magnitudes. -/
def magBitop (f : ℕ → ℕ → ℕ) (w : ℕ) (a b : List ℕ) : List ℕ :=
  List.zipWith f (padTo (max a.length b.length) a) (padTo (max a.length b.length) b)

def magAnd (w : ℕ) (a b : List ℕ) : List ℕ := magBitop (fun x y => x &&& y) w a b

def magOr (w : ℕ) (a b : List ℕ) : List ℕ := magBitop (fun x y => x ||| y) w a b

def magXor (w : ℕ) (a b : List ℕ) : List ℕ := magBitop (fun x y => x ^^^ y) w a b

/-- Generic correctness of a limb-wise bit operation against its bit semantics. -/
theorem toVal_zipWith_bitop (w : ℕ) (hw : 1 ≤ w)
    (f : ℕ → ℕ → ℕ) (g : Bool → Bool → Bool)
    (hfg : ∀ x y i, Nat.testBit (f x y) i = g (Nat.testBit x i) (Nat.testBit y i))
    (hg0 : g false false = false)
    (hfw : ∀ x y, x < 2 ^ w → y < 2 ^ w → f x y < 2 ^ w) :
    ∀ a b : List ℕ, limbsWF w a → limbsWF w b → a.length = b.length →
      limbsWF w (List.zipWith f a b) ∧
      (∀ i, Nat.testBit (toVal w (List.zipWith f a b)) i
          = g (Nat.testBit (toVal w a) i) (Nat.testBit (toVal w b) i)) := by
  intro a
  induction a with
  | nil =>
    intro b _ _ hlen
    have hb : b = [] := List.eq_nil_of_length_eq_zero hlen.symm
    subst hb
    refine ⟨fun l hl => absurd hl (List.not_mem_nil l), fun i => ?_⟩
    simp [toVal, Nat.zero_testBit, hg0]
  | cons x xs ih =>
    intro b hxa hb hlen
    cases b with
    | nil => simp at hlen
    | cons y ys =>
      have hx : x < 2 ^ w := hxa x (List.mem_cons_self x xs)
      have hy : y < 2 ^ w := hb y (List.mem_cons_self y ys)
      have hxs : limbsWF w xs := fun z hz => hxa z (List.mem_cons_of_mem x hz)
      have hys : limbsWF w ys := fun z hz => hb z (List.mem_cons_of_mem y hz)
      have hlen' : xs.length = ys.length := by
        simp at hlen
        exact hlen
      obtain ⟨ihwf, ihbit⟩ := ih ys hxs hys hlen'
      rw [List.zipWith_cons_cons]
      constructor
      · intro l hl
        rcases List.mem_cons.mp hl with h | h
        · subst h
          exact hfw x y hx hy
        · exact ihwf l h
      · intro i
        rw [toVal, toVal, toVal,
          testBit_limb_decomp w _ _ i hw (hfw x y hx hy),
          testBit_limb_decomp w _ _ i hw hx,
          testBit_limb_decomp w _ _ i hw hy]
        by_cases hi : i < w
        · rw [if_pos hi, if_pos hi, if_pos hi, hfg]
        · rw [if_neg hi, if_neg hi, if_neg hi, ihbit]

theorem magAnd_spec (w : ℕ) (hw : 1 ≤ w) (a b : List ℕ)
    (ha : limbsWF w a) (hb : limbsWF w b) :
    toVal w (magAnd w a b) = toVal w a &&& toVal w b ∧ limbsWF w (magAnd w a b) := by
  obtain ⟨hwf, hbit⟩ := toVal_zipWith_bitop w hw (fun x y => x &&& y) (fun p q => p && q)
    (fun x y i => Nat.testBit_land x y i) rfl
    (fun x y _ hy => Nat.and_lt_two_pow x hy)
    (padTo (max a.length b.length) a) (padTo (max a.length b.length) b)
    (limbsWF_padTo w _ hw a ha) (limbsWF_padTo w _ hw b hb)
    (by rw [padTo_length _ _ (le_max_left _ _), padTo_length _ _ (le_max_right _ _)])
  refine ⟨?_, hwf⟩
  apply Nat.eq_of_testBit_eq
  intro i
  rw [magAnd, magBitop, hbit i, toVal_padTo, toVal_padTo, Nat.testBit_land]

theorem magOr_spec (w : ℕ) (hw : 1 ≤ w) (a b : List ℕ)
    (ha : limbsWF w a) (hb : limbsWF w b) :
    toVal w (magOr w a b) = toVal w a ||| toVal w b ∧ limbsWF w (magOr w a b) := by
  obtain ⟨hwf, hbit⟩ := toVal_zipWith_bitop w hw (fun x y => x ||| y) (fun p q => p || q)
    (fun x y i => Nat.testBit_lor x y i) rfl
    (fun x y hx hy => Nat.or_lt_two_pow hx hy)
    (padTo (max a.length b.length) a) (padTo (max a.length b.length) b)
    (limbsWF_padTo w _ hw a ha) (limbsWF_padTo w _ hw b hb)
    (by rw [padTo_length _ _ (le_max_left _ _), padTo_length _ _ (le_max_right _ _)])
  refine ⟨?_, hwf⟩
  apply Nat.eq_of_testBit_eq
  intro i
  rw [magOr, magBitop, hbit i, toVal_padTo, toVal_padTo, Nat.testBit_lor]

theorem magXor_spec (w : ℕ) (hw : 1 ≤ w) (a b : List ℕ)
    (ha : limbsWF w a) (hb : limbsWF w b) :
    toVal w (magXor w a b) = toVal w a ^^^ toVal w b ∧ limbsWF w (magXor w a b) := by
  obtain ⟨hwf, hbit⟩ := toVal_zipWith_bitop w hw (fun x y => x ^^^ y) (fun p q => p ^^ q)
    (fun x y i => Nat.testBit_xor x y i) rfl
    (fun x y hx hy => Nat.xor_lt_two_pow hx hy)
    (padTo (max a.length b.length) a) (padTo (max a.length b.length) b)
    (limbsWF_padTo w _ hw a ha) (limbsWF_padTo w _ hw b hb)
    (by rw [padTo_length _ _ (le_max_left _ _), padTo_length _ _ (le_max_right _ _)])
  refine ⟨?_, hwf⟩
  apply Nat.eq_of_testBit_eq
  intro i
  rw [magXor, magBitop, hbit i, toVal_padTo, toVal_padTo, Nat.testBit_xor]

/-- The borrow-based comparison decides strict order of values. -/
theorem magLt_iff (w : ℕ) (hw : 1 ≤ w) (a b : List ℕ)
    (ha : limbsWF w a) (hb : limbsWF w b) :
    magLt w a b = true ↔ toVal w a < toVal w b := by
  rw [magLt, beq_iff_eq, (magSub_spec w hw a b ha hb).1]
  by_cases h : toVal w a < toVal w b
  · simp [h]
  · simp [h]

/-- Halving a magnitude (division by two). -/
def magHalf (w : ℕ) (a : List ℕ) : List ℕ := (magDivMod w a (magDouble w [1])).1

/-- Parity test via the remainder mod two. -/
def magOdd (w : ℕ) (a : List ℕ) : Bool := !magIsZero ((magDivMod w a (magDouble w [1])).2)

theorem toVal_two (w : ℕ) : toVal w (magDouble w [1]) = 2 := by
  rw [toVal_magDouble, toVal_one]

theorem limbsWF_two (w : ℕ) (hw : 1 ≤ w) : limbsWF w (magDouble w [1]) :=
  limbsWF_magDouble w hw [1] (limbsWF_one w hw)

theorem magHalf_spec (w : ℕ) (hw : 1 ≤ w) (a : List ℕ) (ha : limbsWF w a) :
    toVal w (magHalf w a) = toVal w a / 2 ∧ limbsWF w (magHalf w a) := by
  obtain ⟨h1, _, h3, _⟩ := magDivMod_spec w hw a (magDouble w [1]) ha (limbsWF_two w hw)
  rw [toVal_two] at h1
  exact ⟨h1, h3⟩

theorem magOdd_spec (w : ℕ) (hw : 1 ≤ w) (a : List ℕ) (ha : limbsWF w a) :
    magOdd w a = decide (toVal w a % 2 = 1) := by
  obtain ⟨_, h2, _, _⟩ := magDivMod_spec w hw a (magDouble w [1]) ha (limbsWF_two w hw)
  rw [toVal_two] at h2
  rw [magOdd]
  by_cases h : toVal w a % 2 = 0
  · have hz : magIsZero ((magDivMod w a (magDouble w [1])).2) = true :=
      (magIsZero_iff w _).mpr (by omega)
    rw [hz, decide_eq_false (by omega)]
    rfl
  · have hnz : magIsZero ((magDivMod w a (magDouble w [1])).2) = false := by
      rcases Bool.eq_false_or_eq_true (magIsZero ((magDivMod w a (magDouble w [1])).2)) with
        hc | hc
      · have := (magIsZero_iff w _).mp hc
        omega
      · exact hc
    rw [hnz, decide_eq_true (by omega)]
    rfl

theorem gcd_sub_right_eq {a b : ℕ} (h : a ≤ b) : Nat.gcd a (b - a) = Nat.gcd a b := by
  apply Nat.dvd_antisymm
  · refine Nat.dvd_gcd (Nat.gcd_dvd_left _ _) ?_
    have h1 := Nat.gcd_dvd_left a (b - a)
    have h2 := Nat.gcd_dvd_right a (b - a)
    have h3 : Nat.gcd a (b - a) ∣ (b - a) + a := Nat.dvd_add h2 h1
    rwa [Nat.sub_add_cancel h] at h3
  · exact Nat.dvd_gcd (Nat.gcd_dvd_left _ _)
      (Nat.dvd_sub' (Nat.gcd_dvd_right _ _) (Nat.gcd_dvd_left _ _))

theorem gcd_sub_left_eq {a b : ℕ} (h : b ≤ a) : Nat.gcd (a - b) b = Nat.gcd a b := by
  rw [Nat.gcd_comm, gcd_sub_right_eq h, Nat.gcd_comm]

/-- Binary (Stein) gcd on magnitudes, with explicit fuel. -/
def magGcd (w : ℕ) : ℕ → List ℕ → List ℕ → List ℕ
  | 0, a, _ => a
  | fuel + 1, a, b =>
      if magIsZero a then b
      else if magIsZero b then a
      else if magOdd w a then
        if magOdd w b then
          if magLt w a b then magGcd w fuel a (magSub w b a).1
          else magGcd w fuel (magSub w a b).1 b
        else magGcd w fuel a (magHalf w b)
      else
        if magOdd w b then magGcd w fuel (magHalf w a) b
        else magDouble w (magGcd w fuel (magHalf w a) (magHalf w b))

/-- The fueled Stein loop computes the gcd of the values. -/
theorem magGcd_spec (w : ℕ) (hw : 1 ≤ w) : ∀ (fuel : ℕ) (a b : List ℕ),
    limbsWF w a → limbsWF w b → toVal w a + toVal w b < fuel →
    toVal w (magGcd w fuel a b) = Nat.gcd (toVal w a) (toVal w b) ∧
    limbsWF w (magGcd w fuel a b) := by
  intro fuel
  induction fuel with
  | zero => intro a b _ _ hlt; omega
  | succ fuel ih =>
    intro a b ha hb hlt
    rw [magGcd]
    by_cases hA : magIsZero a
    · rw [if_pos hA, (magIsZero_iff w a).mp hA, Nat.gcd_zero_left]
      exact ⟨rfl, hb⟩
    · rw [if_neg hA]
      have hA0 : toVal w a ≠ 0 := fun h => hA ((magIsZero_iff w a).mpr h)
      by_cases hB : magIsZero b
      · rw [if_pos hB, (magIsZero_iff w b).mp hB, Nat.gcd_zero_right]
        exact ⟨rfl, ha⟩
      · rw [if_neg hB]
        have hB0 : toVal w b ≠ 0 := fun h => hB ((magIsZero_iff w b).mpr h)
        obtain ⟨hhavs, hhawf⟩ := magHalf_spec w hw a ha
        obtain ⟨hhbvs, hhbwf⟩ := magHalf_spec w hw b hb
        by_cases hoa : magOdd w a = true
        · rw [if_pos hoa]
          have hA2 : toVal w a % 2 = 1 := by
            rw [magOdd_spec w hw a ha] at hoa
            exact of_decide_eq_true hoa
          by_cases hob : magOdd w b = true
          · rw [if_pos hob]
            by_cases hltab : magLt w a b = true
            · rw [if_pos hltab]
              have hab : toVal w a < toVal w b := (magLt_iff w hw a b ha hb).mp hltab
              obtain ⟨_, hsw, hsv⟩ := magSub_spec w hw b a hb ha
              have hsval : toVal w (magSub w b a).1 = toVal w b - toVal w a :=
                hsv (le_of_lt hab)
              obtain ⟨ihv, ihwf⟩ := ih a (magSub w b a).1 ha hsw (by rw [hsval]; omega)
              rw [ihv, hsval, gcd_sub_right_eq (le_of_lt hab)]
              exact ⟨rfl, ihwf⟩
            · rw [if_neg hltab]
              have hab : toVal w b ≤ toVal w a := by
                have hnlt : ¬ toVal w a < toVal w b :=
                  fun hc => hltab ((magLt_iff w hw a b ha hb).mpr hc)
                omega
              obtain ⟨_, hsw, hsv⟩ := magSub_spec w hw a b ha hb
              have hsval : toVal w (magSub w a b).1 = toVal w a - toVal w b := hsv hab
              obtain ⟨ihv, ihwf⟩ := ih (magSub w a b).1 b hsw hb (by rw [hsval]; omega)
              rw [ihv, hsval, gcd_sub_left_eq hab]
              exact ⟨rfl, ihwf⟩
          · rw [if_neg hob]
            have hB2 : toVal w b % 2 = 0 := by
              rw [magOdd_spec w hw b hb] at hob
              have : ¬ toVal w b % 2 = 1 := fun hc => hob (decide_eq_true hc)
              omega
            obtain ⟨ihv, ihwf⟩ := ih a (magHalf w b) ha hhbwf (by rw [hhbvs]; omega)
            refine ⟨?_, ihwf⟩
            rw [ihv, hhbvs]
            conv_rhs => rw [show toVal w b = 2 * (toVal w b / 2) by omega]
            rw [Nat.Coprime.gcd_mul_left_cancel_right _
              ((Nat.Prime.coprime_iff_not_dvd Nat.prime_two).mpr
                (Nat.two_dvd_ne_zero.mpr hA2))]
        · rw [if_neg hoa]
          have hA2 : toVal w a % 2 = 0 := by
            rw [magOdd_spec w hw a ha] at hoa
            have : ¬ toVal w a % 2 = 1 := fun hc => hoa (decide_eq_true hc)
            omega
          by_cases hob : magOdd w b = true
          · rw [if_pos hob]
            have hB2 : toVal w b % 2 = 1 := by
              rw [magOdd_spec w hw b hb] at hob
              exact of_decide_eq_true hob
            obtain ⟨ihv, ihwf⟩ := ih (magHalf w a) b hhawf hb (by rw [hhavs]; omega)
            refine ⟨?_, ihwf⟩
            rw [ihv, hhavs]
            conv_rhs => rw [show toVal w a = 2 * (toVal w a / 2) by omega]
            rw [Nat.Coprime.gcd_mul_left_cancel _
              ((Nat.Prime.coprime_iff_not_dvd Nat.prime_two).mpr
                (Nat.two_dvd_ne_zero.mpr hB2))]
          · rw [if_neg hob]
            have hB2 : toVal w b % 2 = 0 := by
              rw [magOdd_spec w hw b hb] at hob
              have : ¬ toVal w b % 2 = 1 := fun hc => hob (decide_eq_true hc)
              omega
            obtain ⟨ihv, ihwf⟩ := ih (magHalf w a) (magHalf w b) hhawf hhbwf
              (by rw [hhavs, hhbvs]; omega)
            refine ⟨?_, limbsWF_magDouble w hw _ ihwf⟩
            rw [toVal_magDouble, ihv, hhavs, hhbvs]
            conv_rhs => rw [show toVal w a = 2 * (toVal w a / 2) by omega,
              show toVal w b = 2 * (toVal w b / 2) by omega]
            rw [Nat.gcd_mul_left]

/-- Newton iteration for the integer square root on magnitudes, with fuel. -/
def magSqrtIter (w : ℕ) (a : List ℕ) : ℕ → List ℕ → List ℕ
  | 0, g => g
  | fuel + 1, g =>
      if magLt w (magHalf w (magAdd w g (magDivMod w a g).1)) g then
        magSqrtIter w a fuel (magHalf w (magAdd w g (magDivMod w a g).1))
      else g

/-- Integer square root of a magnitude. -/
def magSqrt (w : ℕ) (a : List ℕ) : List ℕ :=
  if magLt w a (magDouble w [1]) then a
  else magSqrtIter w a (toVal w a) (magHalf w a)

/-- The magnitude Newton loop simulates the integer Newton loop. -/
theorem magSqrtIter_spec (w : ℕ) (hw : 1 ≤ w) (a : List ℕ) (ha : limbsWF w a) :
    ∀ (fuel : ℕ) (g : List ℕ), limbsWF w g → toVal w g < fuel →
      toVal w (magSqrtIter w a fuel g) = sqrtIter (toVal w a) (toVal w g) ∧
      limbsWF w (magSqrtIter w a fuel g) := by
  intro fuel
  induction fuel with
  | zero => intro g _ hlt; omega
  | succ fuel ih =>
    intro g hg hfuel
    obtain ⟨hqv, _, hqw, _⟩ := magDivMod_spec w hw a g ha hg
    have haddwf : limbsWF w (magAdd w g (magDivMod w a g).1) :=
      limbsWF_magAdd w hw g _ hg hqw
    have haddv : toVal w (magAdd w g (magDivMod w a g).1)
        = toVal w g + toVal w a / toVal w g := by
      rw [toVal_magAdd, hqv]
    obtain ⟨hhv, hhw⟩ := magHalf_spec w hw _ haddwf
    rw [magSqrtIter]
    by_cases hcond : magLt w (magHalf w (magAdd w g (magDivMod w a g).1)) g = true
    · rw [if_pos hcond]
      have hlt : toVal w (magHalf w (magAdd w g (magDivMod w a g).1)) < toVal w g :=
        (magLt_iff w hw _ _ hhw hg).mp hcond
      obtain ⟨ihv, ihwf⟩ := ih (magHalf w (magAdd w g (magDivMod w a g).1)) hhw (by omega)
      refine ⟨?_, ihwf⟩
      rw [ihv, hhv, haddv]
      rw [hhv, haddv] at hlt
      conv_rhs => rw [sqrtIter]
      rw [dif_pos hlt]
    · rw [if_neg hcond]
      have hnlt : ¬ toVal w (magHalf w (magAdd w g (magDivMod w a g).1)) < toVal w g :=
        fun hc => hcond ((magLt_iff w hw _ _ hhw hg).mpr hc)
      rw [hhv, haddv] at hnlt
      rw [sqrtIter, dif_neg hnlt]
      exact ⟨rfl, hg⟩

/-- Magnitude integer square root computes `sqrt_floor` of the value. -/
theorem magSqrt_spec (w : ℕ) (hw : 1 ≤ w) (a : List ℕ) (ha : limbsWF w a) :
    toVal w (magSqrt w a) = sqrt_floor (toVal w a) ∧ limbsWF w (magSqrt w a) := by
  rw [magSqrt, sqrt_floor]
  by_cases hsmall : magLt w a (magDouble w [1]) = true
  · rw [if_pos hsmall]
    have h2 : toVal w a < 2 := by
      have := (magLt_iff w hw a _ ha (limbsWF_two w hw)).mp hsmall
      rwa [toVal_two] at this
    rw [if_pos (by omega)]
    exact ⟨rfl, ha⟩
  · rw [if_neg hsmall]
    have h2 : 2 ≤ toVal w a := by
      have hnlt : ¬ toVal w a < toVal w (magDouble w [1]) :=
        fun hc => hsmall ((magLt_iff w hw a _ ha (limbsWF_two w hw)).mpr hc)
      rw [toVal_two] at hnlt
      omega
    rw [if_neg (by omega)]
    obtain ⟨hhv, hhw⟩ := magHalf_spec w hw a ha
    obtain ⟨hv, hwf⟩ := magSqrtIter_spec w hw a ha (toVal w a) (magHalf w a) hhw
      (by rw [hhv]; omega)
    rw [hv, hhv] at *
    exact ⟨hv, hwf⟩

/-- Left-to-right binary exponentiation mod `m`: square, and multiply on set bits. -/
def magPowModBits (w : ℕ) (a m : List ℕ) : List Bool → List ℕ → List ℕ
  | [], acc => acc
  | bit :: rest, acc =>
      magPowModBits w a m rest
        (if bit then (magDivMod w (magMul w (magDivMod w (magMul w acc acc) m).2 a) m).2
         else (magDivMod w (magMul w acc acc) m).2)

/-- Modular exponentiation on magnitudes. -/
def magPowMod (w : ℕ) (a e m : List ℕ) : List ℕ :=
  magPowModBits w a m (magBits w e) ((magDivMod w [1] m).2)

/-- Invariant of the square-and-multiply loop. -/
theorem magPowModBits_spec (w : ℕ) (hw : 1 ≤ w) (a m : List ℕ)
    (haw : limbsWF w a) (hmw : limbsWF w m) :
    ∀ (bits : List Bool) (acc : List ℕ) (v : ℕ), limbsWF w acc →
      toVal w acc = toVal w a ^ v % toVal w m →
      toVal w (magPowModBits w a m bits acc) = toVal w a ^ msbVal bits v % toVal w m ∧
      limbsWF w (magPowModBits w a m bits acc) := by
  intro bits
  induction bits with
  | nil =>
    intro acc v hacc hval
    exact ⟨hval, hacc⟩
  | cons bit rest ih =>
    intro acc v hacc hval
    rw [magPowModBits, msbVal]
    obtain ⟨_, hsq2, _, hsqw⟩ :=
      magDivMod_spec w hw (magMul w acc acc) m (limbsWF_magMul w hw acc acc hacc hacc) hmw
    have hsqval : toVal w (magDivMod w (magMul w acc acc) m).2
        = toVal w a ^ (2 * v) % toVal w m := by
      rw [hsq2, toVal_magMul, hval, ← Nat.mul_mod, ← pow_add, two_mul]
    cases bit
    · rw [if_neg (by simp)]
      exact ih _ (2 * v + 0) hsqw (by rw [hsqval, Nat.add_zero])
    · rw [if_pos rfl]
      obtain ⟨_, hm2, _, hmw2⟩ :=
        magDivMod_spec w hw (magMul w (magDivMod w (magMul w acc acc) m).2 a) m
          (limbsWF_magMul w hw _ a hsqw haw) hmw
      refine ih _ (2 * v + 1) hmw2 ?_
      rw [hm2, toVal_magMul, hsqval, Nat.mod_mul_mod, ← pow_succ]

/-- Magnitude modular exponentiation computes `a ^ e % m` on values. -/
theorem magPowMod_spec (w : ℕ) (hw : 1 ≤ w) (a e m : List ℕ)
    (haw : limbsWF w a) (hew : limbsWF w e) (hmw : limbsWF w m) :
    toVal w (magPowMod w a e m) = toVal w a ^ toVal w e % toVal w m ∧
    limbsWF w (magPowMod w a e m) := by
  obtain ⟨_, h2, _, h4⟩ := magDivMod_spec w hw [1] m (limbsWF_one w hw) hmw
  obtain ⟨hv, hwf⟩ := magPowModBits_spec w hw a m haw hmw (magBits w e)
    ((magDivMod w [1] m).2) 0 h4 (by rw [h2, toVal_one, pow_zero])
  rw [magPowMod]
  refine ⟨?_, hwf⟩
  rw [hv, msbVal_magBits w e 0 hew, Nat.zero_mul, Nat.zero_add]

/-- C8: for every magnitude operation (add, sub with its borrow/comparison, mul,
div/mod, shifts, bitwise and/or/xor, bit test, gcd, sqrt, powmod) and every
input, the observable result is identical whether the build-time limb width is
16 or 32: the two instantiations of the magnitude layer are extensionally equal
as functions of the encoded values. -/
theorem magnitude_width_invariant :
    (∀ x y : ℕ, toVal 16 (magAdd 16 (ofVal 16 x) (ofVal 16 y))
        = toVal 32 (magAdd 32 (ofVal 32 x) (ofVal 32 y))) ∧
    (∀ x y : ℕ, (magSub 16 (ofVal 16 x) (ofVal 16 y)).2
        = (magSub 32 (ofVal 32 x) (ofVal 32 y)).2) ∧
    (∀ x y : ℕ, y ≤ x → toVal 16 (magSub 16 (ofVal 16 x) (ofVal 16 y)).1
        = toVal 32 (magSub 32 (ofVal 32 x) (ofVal 32 y)).1) ∧
    (∀ x y : ℕ, magLt 16 (ofVal 16 x) (ofVal 16 y)
        = magLt 32 (ofVal 32 x) (ofVal 32 y)) ∧
    (∀ x y : ℕ, toVal 16 (magMul 16 (ofVal 16 x) (ofVal 16 y))
        = toVal 32 (magMul 32 (ofVal 32 x) (ofVal 32 y))) ∧
    (∀ x y : ℕ, toVal 16 (magDivMod 16 (ofVal 16 x) (ofVal 16 y)).1
        = toVal 32 (magDivMod 32 (ofVal 32 x) (ofVal 32 y)).1) ∧
    (∀ x y : ℕ, toVal 16 (magDivMod 16 (ofVal 16 x) (ofVal 16 y)).2
        = toVal 32 (magDivMod 32 (ofVal 32 x) (ofVal 32 y)).2) ∧
    (∀ k x : ℕ, toVal 16 (magShl 16 k (ofVal 16 x))
        = toVal 32 (magShl 32 k (ofVal 32 x))) ∧
    (∀ k x : ℕ, toVal 16 (magShr 16 k (ofVal 16 x))
        = toVal 32 (magShr 32 k (ofVal 32 x))) ∧
    (∀ x y : ℕ, toVal 16 (magAnd 16 (ofVal 16 x) (ofVal 16 y))
        = toVal 32 (magAnd 32 (ofVal 32 x) (ofVal 32 y))) ∧
    (∀ x y : ℕ, toVal 16 (magOr 16 (ofVal 16 x) (ofVal 16 y))
        = toVal 32 (magOr 32 (ofVal 32 x) (ofVal 32 y))) ∧
    (∀ x y : ℕ, toVal 16 (magXor 16 (ofVal 16 x) (ofVal 16 y))
        = toVal 32 (magXor 32 (ofVal 32 x) (ofVal 32 y))) ∧
    (∀ x i : ℕ, magTestBit 16 (ofVal 16 x) i = magTestBit 32 (ofVal 32 x) i) ∧
    (∀ x y : ℕ, toVal 16 (magGcd 16 (x + y + 1) (ofVal 16 x) (ofVal 16 y))
        = toVal 32 (magGcd 32 (x + y + 1) (ofVal 32 x) (ofVal 32 y))) ∧
    (∀ x : ℕ, toVal 16 (magSqrt 16 (ofVal 16 x))
        = toVal 32 (magSqrt 32 (ofVal 32 x))) ∧
    (∀ x e m : ℕ, toVal 16 (magPowMod 16 (ofVal 16 x) (ofVal 16 e) (ofVal 16 m))
        = toVal 32 (magPowMod 32 (ofVal 32 x) (ofVal 32 e) (ofVal 32 m))) := by
  have h16 : (1 : ℕ) ≤ 16 := by omega
  have h32 : (1 : ℕ) ≤ 32 := by omega
  refine ⟨?_, ?_, ?_, ?_, ?_, ?_, ?_, ?_, ?_, ?_, ?_, ?_, ?_, ?_, ?_, ?_⟩
  · intro x y
    rw [toVal_magAdd, toVal_magAdd, toVal_ofVal _ _ h16, toVal_ofVal _ _ h16,
      toVal_ofVal _ _ h32, toVal_ofVal _ _ h32]
  · intro x y
    rw [(magSub_spec 16 h16 _ _ (limbsWF_ofVal 16 x h16) (limbsWF_ofVal 16 y h16)).1,
      (magSub_spec 32 h32 _ _ (limbsWF_ofVal 32 x h32) (limbsWF_ofVal 32 y h32)).1,
      toVal_ofVal _ _ h16, toVal_ofVal _ _ h16, toVal_ofVal _ _ h32, toVal_ofVal _ _ h32]
  · intro x y hxy
    rw [(magSub_spec 16 h16 _ _ (limbsWF_ofVal 16 x h16) (limbsWF_ofVal 16 y h16)).2.2
        (by rw [toVal_ofVal _ _ h16, toVal_ofVal _ _ h16]; exact hxy),
      (magSub_spec 32 h32 _ _ (limbsWF_ofVal 32 x h32) (limbsWF_ofVal 32 y h32)).2.2
        (by rw [toVal_ofVal _ _ h32, toVal_ofVal _ _ h32]; exact hxy),
      toVal_ofVal _ _ h16, toVal_ofVal _ _ h16, toVal_ofVal _ _ h32, toVal_ofVal _ _ h32]
  · intro x y
    rw [magLt, magLt,
      (magSub_spec 16 h16 _ _ (limbsWF_ofVal 16 x h16) (limbsWF_ofVal 16 y h16)).1,
      (magSub_spec 32 h32 _ _ (limbsWF_ofVal 32 x h32) (limbsWF_ofVal 32 y h32)).1,
      toVal_ofVal _ _ h16, toVal_ofVal _ _ h16, toVal_ofVal _ _ h32, toVal_ofVal _ _ h32]
  · intro x y
    rw [toVal_magMul, toVal_magMul, toVal_ofVal _ _ h16, toVal_ofVal _ _ h16,
      toVal_ofVal _ _ h32, toVal_ofVal _ _ h32]
  · intro x y
    rw [(magDivMod_spec 16 h16 _ _ (limbsWF_ofVal 16 x h16) (limbsWF_ofVal 16 y h16)).1,
      (magDivMod_spec 32 h32 _ _ (limbsWF_ofVal 32 x h32) (limbsWF_ofVal 32 y h32)).1,
      toVal_ofVal _ _ h16, toVal_ofVal _ _ h16, toVal_ofVal _ _ h32, toVal_ofVal _ _ h32]
  · intro x y
    rw [(magDivMod_spec 16 h16 _ _ (limbsWF_ofVal 16 x h16) (limbsWF_ofVal 16 y h16)).2.1,
      (magDivMod_spec 32 h32 _ _ (limbsWF_ofVal 32 x h32) (limbsWF_ofVal 32 y h32)).2.1,
      toVal_ofVal _ _ h16, toVal_ofVal _ _ h16, toVal_ofVal _ _ h32, toVal_ofVal _ _ h32]
  · intro k x
    rw [toVal_magShl 16 h16, toVal_magShl 32 h32, toVal_ofVal _ _ h16, toVal_ofVal _ _ h32]
  · intro k x
    rw [(magShr_spec 16 h16 k _ (limbsWF_ofVal 16 x h16)).1,
      (magShr_spec 32 h32 k _ (limbsWF_ofVal 32 x h32)).1,
      toVal_ofVal _ _ h16, toVal_ofVal _ _ h32]
  · intro x y
    rw [(magAnd_spec 16 h16 _ _ (limbsWF_ofVal 16 x h16) (limbsWF_ofVal 16 y h16)).1,
      (magAnd_spec 32 h32 _ _ (limbsWF_ofVal 32 x h32) (limbsWF_ofVal 32 y h32)).1,
      toVal_ofVal _ _ h16, toVal_ofVal _ _ h16, toVal_ofVal _ _ h32, toVal_ofVal _ _ h32]
  · intro x y
    rw [(magOr_spec 16 h16 _ _ (limbsWF_ofVal 16 x h16) (limbsWF_ofVal 16 y h16)).1,
      (magOr_spec 32 h32 _ _ (limbsWF_ofVal 32 x h32) (limbsWF_ofVal 32 y h32)).1,
      toVal_ofVal _ _ h16, toVal_ofVal _ _ h16, toVal_ofVal _ _ h32, toVal_ofVal _ _ h32]
  · intro x y
    rw [(magXor_spec 16 h16 _ _ (limbsWF_ofVal 16 x h16) (limbsWF_ofVal 16 y h16)).1,
      (magXor_spec 32 h32 _ _ (limbsWF_ofVal 32 x h32) (limbsWF_ofVal 32 y h32)).1,
      toVal_ofVal _ _ h16, toVal_ofVal _ _ h16, toVal_ofVal _ _ h32, toVal_ofVal _ _ h32]
  · intro x i
    rw [magTestBit_spec 16 h16 _ (limbsWF_ofVal 16 x h16) i,
      magTestBit_spec 32 h32 _ (limbsWF_ofVal 32 x h32) i,
      toVal_ofVal _ _ h16, toVal_ofVal _ _ h32]
  · intro x y
    rw [(magGcd_spec 16 h16 (x + y + 1) _ _ (limbsWF_ofVal 16 x h16)
        (limbsWF_ofVal 16 y h16)
        (by rw [toVal_ofVal _ _ h16, toVal_ofVal _ _ h16]; omega)).1,
      (magGcd_spec 32 h32 (x + y + 1) _ _ (limbsWF_ofVal 32 x h32)
        (limbsWF_ofVal 32 y h32)
        (by rw [toVal_ofVal _ _ h32, toVal_ofVal _ _ h32]; omega)).1,
      toVal_ofVal _ _ h16, toVal_ofVal _ _ h16, toVal_ofVal _ _ h32, toVal_ofVal _ _ h32]
  · intro x
    rw [(magSqrt_spec 16 h16 _ (limbsWF_ofVal 16 x h16)).1,
      (magSqrt_spec 32 h32 _ (limbsWF_ofVal 32 x h32)).1,
      toVal_ofVal _ _ h16, toVal_ofVal _ _ h32]
  · intro x e m
    rw [(magPowMod_spec 16 h16 _ _ _ (limbsWF_ofVal 16 x h16) (limbsWF_ofVal 16 e h16)
        (limbsWF_ofVal 16 m h16)).1,
      (magPowMod_spec 32 h32 _ _ _ (limbsWF_ofVal 32 x h32) (limbsWF_ofVal 32 e h32)
        (limbsWF_ofVal 32 m h32)).1,
      toVal_ofVal _ _ h16, toVal_ofVal _ _ h16, toVal_ofVal _ _ h16,
      toVal_ofVal _ _ h32, toVal_ofVal _ _ h32, toVal_ofVal _ _ h32]

/-- Witness for C8: the subtraction clause applied at `7 - 5`, whose
side condition `5 ≤ 7` holds concretely. -/
theorem magnitude_width_invariant_witness :
    (5 : ℕ) ≤ 7 ∧
    toVal 16 (magSub 16 (ofVal 16 7) (ofVal 16 5)).1
      = toVal 32 (magSub 32 (ofVal 32 7) (ofVal 32 5)).1 :=
  ⟨by decide, magnitude_width_invariant.2.2.1 7 5 (by decide)⟩
